import Mathlib

/-!
# Verification of the bitmask backtracking Sudoku solver

Shallow embedding of `src/dsa/solutions/backtracking/0037_sudoku_solver.cpp`
(`class Solution`: members `rowMask`, `colMask`, `boxMask`, `empties`, methods
`boxIndex`, `init`, `dfs`, `solveSudoku`).

The C++ code mutates a 9×9 `vector<vector<char>>` board and three arrays of
9-bit `int` masks in place.  Here the mutable search state (board + masks) is a
`SState` value threaded explicitly; the recursive `dfs(board, idx)` — which
consumes the member list `empties` from index `idx` upward — is embedded as
`dfsL` recursing over the suffix `empties.drop idx` (definition `dfs` below
re-exposes the index-based view).  Masks are `Nat`s; the C++ 32-bit `~bit` in
the backtracking step is translated as XOR with the all-ones 32-bit pattern.
-/

set_option linter.unusedVariables false

namespace Sudoku

/-- A Sudoku board: 9×9 grid of characters, each `'1'`–`'9'` or `'.'`
(the `std::vector<std::vector<char>>& board` of the source). -/
abbrev Board := Fin 9 → Fin 9 → Char

/-- `Solution::boxIndex`: `(r / 3) * 3 + (c / 3)`. -/
def boxIndex (r c : Fin 9) : Fin 9 :=
  ⟨r.val / 3 * 3 + c.val / 3, by have := r.isLt; have := c.isLt; omega⟩

/-- The character written by `board[r][c] = static_cast<char>('1' + d)`. -/
def digitChar (d : Nat) : Char := Char.ofNat ('1'.toNat + d)

/-- The persistent members of `class Solution`: the three mask arrays and the
list of empty-cell coordinates. -/
structure Solver where
  rowMask : Fin 9 → Nat
  colMask : Fin 9 → Nat
  boxMask : Fin 9 → Nat
  empties : List (Fin 9 × Fin 9)
  deriving DecidableEq

/-- A freshly constructed `Solution` object: the in-class initializers
`int rowMask[9] = {0};` etc., and an empty `empties` vector. -/
def Solver.new : Solver :=
  { rowMask := fun _ => 0, colMask := fun _ => 0, boxMask := fun _ => 0, empties := [] }

/-- The 81 cells in row-major order: the iteration order of the two nested
`for` loops of `Solution::init`. -/
def cellsRM : List (Fin 9 × Fin 9) :=
  (List.finRange 9).flatMap fun r => (List.finRange 9).map fun c => (r, c)

/-- One iteration of the loop body of `Solution::init` at cell `p`:
if `board[r][c] == '.'` append `p` to `empties`, otherwise OR the digit's bit
into the three masks. -/
def initCell (b : Board) (sol : Solver) (p : Fin 9 × Fin 9) : Solver :=
  let ch := b p.1 p.2
  if ch = '.' then
    { sol with empties := sol.empties ++ [p] }
  else
    let d := ch.toNat - '1'.toNat
    let bit := 1 <<< d
    { sol with
      rowMask := Function.update sol.rowMask p.1 (sol.rowMask p.1 ||| bit)
      colMask := Function.update sol.colMask p.2 (sol.colMask p.2 ||| bit)
      boxMask := Function.update sol.boxMask (boxIndex p.1 p.2)
                   (sol.boxMask (boxIndex p.1 p.2) ||| bit) }

/-- `Solution::init`: clear `empties`, then scan the board in row-major order
accumulating masks and empty-cell coordinates.  The masks are *not* reset:
they accumulate on top of whatever the `Solution` object already holds. -/
def init (sol : Solver) (b : Board) : Solver :=
  cellsRM.foldl (initCell b) { sol with empties := [] }

/-- The mutable state manipulated by `Solution::dfs`: the board (by reference)
and the three member mask arrays. -/
@[ext]
structure SState where
  board : Board
  rowMask : Fin 9 → Nat
  colMask : Fin 9 → Nat
  boxMask : Fin 9 → Nat

instance : DecidableEq SState := fun s t =>
  decidable_of_iff (s.board = t.board ∧ s.rowMask = t.rowMask ∧ s.colMask = t.colMask ∧
      s.boxMask = t.boxMask)
    (by cases s; cases t; simp [SState.mk.injEq])

/-- Write one cell of the board (`board[r][c] = ch`). -/
def setCell (b : Board) (r c : Fin 9) (ch : Char) : Board :=
  Function.update b r (Function.update (b r) c ch)

/-- The "place digit" block of `Solution::dfs`:
`board[r][c] = '1' + d; rowMask[r] |= bit; colMask[c] |= bit; boxMask[b] |= bit;`. -/
def place (s : SState) (r c : Fin 9) (d : Nat) : SState :=
  let bit := 1 <<< d
  { board := setCell s.board r c (digitChar d)
    rowMask := Function.update s.rowMask r (s.rowMask r ||| bit)
    colMask := Function.update s.colMask c (s.colMask c ||| bit)
    boxMask := Function.update s.boxMask (boxIndex r c) (s.boxMask (boxIndex r c) ||| bit) }

/-- The all-ones bit pattern of a 32-bit `int`; `~bit` in the source is the
32-bit pattern `mask32 ^^^ bit`. -/
def mask32 : Nat := 2 ^ 32 - 1

/-- The "backtrack" block of `Solution::dfs`:
`board[r][c] = '.'; rowMask[r] &= ~bit; colMask[c] &= ~bit; boxMask[b] &= ~bit;`. -/
def unplace (s : SState) (r c : Fin 9) (d : Nat) : SState :=
  let bit := 1 <<< d
  { board := setCell s.board r c '.'
    rowMask := Function.update s.rowMask r (s.rowMask r &&& (mask32 ^^^ bit))
    colMask := Function.update s.colMask c (s.colMask c &&& (mask32 ^^^ bit))
    boxMask := Function.update s.boxMask (boxIndex r c)
                 (s.boxMask (boxIndex r c) &&& (mask32 ^^^ bit)) }

/-- `int used = rowMask[r] | colMask[c] | boxMask[boxIndex(r, c)];`. -/
def usedMask (s : SState) (r c : Fin 9) : Nat :=
  s.rowMask r ||| s.colMask c ||| s.boxMask (boxIndex r c)

/-- The `for (int d = 0; d < 9; ++d)` loop of `Solution::dfs`, over the list
`ds` of digits still to try.  `next` is the recursive call at the next index.
A digit whose bit is in `used` is skipped (`continue`); otherwise it is placed,
`next` is run, and on failure the placement is undone and the loop continues.
Falling off the end returns `false`. -/
def tryList (next : SState → Bool × SState) (r c : Fin 9) (used : Nat) :
    List Nat → SState → Bool × SState
  | [], s => (false, s)
  | d :: ds, s =>
    if used &&& (1 <<< d) ≠ 0 then
      tryList next r c used ds s
    else
      let s1 := place s r c d
      let res := next s1
      if res.1 then (true, res.2)
      else tryList next r c used ds (unplace res.2 r c d)

/-- `Solution::dfs`, recursing over the suffix of `empties` that remains to be
filled.  `dfs(board, idx)` in the source corresponds to
`dfsL (empties.drop idx) s`: the `idx == empties.size()` base case is the
empty suffix, and the body handles the head cell `empties[idx]`. -/
def dfsL : List (Fin 9 × Fin 9) → SState → Bool × SState
  | [], s => (true, s)
  | p :: rest, s =>
    tryList (fun s' => dfsL rest s') p.1 p.2 (usedMask s p.1 p.2) (List.range 9) s

/-- Index-based view of `Solution::dfs`: `dfs em s idx` is the call
`dfs(board, idx)` with member `empties = em` and current board/masks `s`. -/
def dfs (em : List (Fin 9 × Fin 9)) (s : SState) (idx : Nat) : Bool × SState :=
  dfsL (em.drop idx) s

/-- Trace-collecting variant of the digit loop: identical control flow to
`tryList`, additionally returning every intermediate search state, i.e. the
state at entry and the state after each place/remove mutation. -/
def tryListT (next : SState → Bool × SState × List SState) (r c : Fin 9) (used : Nat) :
    List Nat → SState → Bool × SState × List SState
  | [], s => (false, s, [s])
  | d :: ds, s =>
    if used &&& (1 <<< d) ≠ 0 then
      tryListT next r c used ds s
    else
      let s1 := place s r c d
      let res := next s1
      if res.1 then (true, res.2.1, s :: s1 :: res.2.2)
      else
        let s3 := unplace res.2.1 r c d
        let rec' := tryListT next r c used ds s3
        (rec'.1, rec'.2.1, (s :: s1 :: res.2.2) ++ rec'.2.2)

/-- Trace-collecting variant of `dfsL`: same result, plus the list of all
states visited during the search (ghost instrumentation; `dfsTL_proj` below
proves it projects to `dfsL`). -/
def dfsTL : List (Fin 9 × Fin 9) → SState → Bool × SState × List SState
  | [], s => (true, s, [s])
  | p :: rest, s =>
    tryListT (fun s' => dfsTL rest s') p.1 p.2 (usedMask s p.1 p.2) (List.range 9) s

/-- Index-based view of the traced search, matching `dfs`. -/
def dfsT (em : List (Fin 9 × Fin 9)) (s : SState) (idx : Nat) : Bool × SState × List SState :=
  dfsTL (em.drop idx) s

/-- The search state at the start of `Solution::solveSudoku`'s call to `dfs`:
the input board together with the masks produced by `init`. -/
def startState (sol : Solver) (b : Board) : SState :=
  { board := b
    rowMask := (init sol b).rowMask
    colMask := (init sol b).colMask
    boxMask := (init sol b).boxMask }

/-- The root `dfs(board, 0)` call made by `Solution::solveSudoku`. -/
def searchResult (sol : Solver) (b : Board) : Bool × SState :=
  dfs (init sol b).empties (startState sol b) 0

/-- `Solution::solveSudoku` on a given `Solution` object: `init(board);
dfs(board, 0);` — the boolean result of `dfs` is discarded; the outputs are
the mutated board and the mutated member state. -/
def solveSudokuS (sol : Solver) (b : Board) : Board × Solver :=
  let res := searchResult sol b
  (res.2.board,
   { rowMask := res.2.rowMask, colMask := res.2.colMask, boxMask := res.2.boxMask,
     empties := (init sol b).empties })

/-- `solveSudoku` as used on a freshly constructed `Solution` object (the
LeetCode calling convention: one object per call): returns the mutated board. -/
def solveSudoku (b : Board) : Board := (solveSudokuS Solver.new b).1

/-! ## Specification predicates -/

/-- Every cell is `'1'`–`'9'` or `'.'` (the problem's character constraint). -/
def ValidBoard (b : Board) : Prop :=
  ∀ r c, b r c = '.' ∨ ∃ d : Fin 9, b r c = digitChar d.val

/-- No cell is empty. -/
def FullBoard (b : Board) : Prop := ∀ r c, b r c ≠ '.'

/-- No digit occurs twice in any row. -/
def RowsOk (b : Board) : Prop :=
  ∀ (r c₁ c₂ : Fin 9) (d : Fin 9),
    b r c₁ = digitChar d.val → b r c₂ = digitChar d.val → c₁ = c₂

/-- No digit occurs twice in any column. -/
def ColsOk (b : Board) : Prop :=
  ∀ (r₁ r₂ c : Fin 9) (d : Fin 9),
    b r₁ c = digitChar d.val → b r₂ c = digitChar d.val → r₁ = r₂

/-- No digit occurs twice in any 3×3 box. -/
def BoxesOk (b : Board) : Prop :=
  ∀ (r₁ c₁ r₂ c₂ : Fin 9) (d : Fin 9), boxIndex r₁ c₁ = boxIndex r₂ c₂ →
    b r₁ c₁ = digitChar d.val → b r₂ c₂ = digitChar d.val → r₁ = r₂ ∧ c₁ = c₂

/-- The filled cells satisfy row/column/box uniqueness. -/
def BoardOk (b : Board) : Prop := RowsOk b ∧ ColsOk b ∧ BoxesOk b

/-- `t` agrees with `b` on every cell that is filled in `b`. -/
def Frames (b t : Board) : Prop := ∀ r c, b r c ≠ '.' → t r c = b r c

/-- `g` is a solution of the puzzle `b`: a fully filled legal digit grid that
agrees with `b` on `b`'s filled cells. -/
def Solves (g b : Board) : Prop := ValidBoard g ∧ FullBoard g ∧ BoardOk g ∧ Frames b g

/-- All three mask arrays are below `n`. -/
def MasksBelow (s : SState) (n : Nat) : Prop :=
  (∀ r, s.rowMask r < n) ∧ (∀ c, s.colMask c < n) ∧ (∀ bx, s.boxMask bx < n)

/-- Mask consistency: the masks are 9-bit values, and bit `d` is set in
`rowMask[r]` / `colMask[c]` / `boxMask[bx]` exactly when some cell of that
row / column / box holds the digit character `'1' + d`. -/
def MaskConsistent (s : SState) : Prop :=
  MasksBelow s 512 ∧
  (∀ (r : Fin 9) (d : Fin 9),
    Nat.testBit (s.rowMask r) d.val ↔ ∃ c, s.board r c = digitChar d.val) ∧
  (∀ (c : Fin 9) (d : Fin 9),
    Nat.testBit (s.colMask c) d.val ↔ ∃ r, s.board r c = digitChar d.val) ∧
  (∀ (bx : Fin 9) (d : Fin 9),
    Nat.testBit (s.boxMask bx) d.val ↔ ∃ r c, boxIndex r c = bx ∧ s.board r c = digitChar d.val)

/-- The invariant of a search state whose remaining empty cells are `rest`:
masks consistent, the board made of valid characters with no duplicate digit
in any row/column/box, and `'.'`-cells exactly the members of `rest`. -/
def PreL (rest : List (Fin 9 × Fin 9)) (s : SState) : Prop :=
  MaskConsistent s ∧ ValidBoard s.board ∧ BoardOk s.board ∧
  ∀ r c, (s.board r c = '.' ↔ (r, c) ∈ rest)

/-- Property of every intermediate search state visited from a base board
`b0`: masks consistent, board valid and duplicate-free, and every cell filled
in `b0` untouched. -/
def TraceInv (b0 : Board) (t : SState) : Prop :=
  MaskConsistent t ∧ ValidBoard t.board ∧ BoardOk t.board ∧ Frames b0 t.board

instance (b : Board) : Decidable (ValidBoard b) := by unfold ValidBoard; infer_instance

instance (b : Board) : Decidable (FullBoard b) := by unfold FullBoard; infer_instance

instance (b : Board) : Decidable (RowsOk b) := by unfold RowsOk; infer_instance

instance (b : Board) : Decidable (ColsOk b) := by unfold ColsOk; infer_instance

instance (b : Board) : Decidable (BoxesOk b) := by unfold BoxesOk; infer_instance

instance (b : Board) : Decidable (BoardOk b) := by unfold BoardOk; infer_instance

instance (b t : Board) : Decidable (Frames b t) := by unfold Frames; infer_instance

instance (g b : Board) : Decidable (Solves g b) := by unfold Solves; infer_instance

instance (s : SState) (n : Nat) : Decidable (MasksBelow s n) := by
  unfold MasksBelow; infer_instance

instance (s : SState) : Decidable (MaskConsistent s) := by unfold MaskConsistent; infer_instance

instance (rest : List (Fin 9 × Fin 9)) (s : SState) : Decidable (PreL rest s) := by
  unfold PreL; infer_instance

/-! ## Concrete boards used by witnesses and counterexamples -/

/-- Build a board from a list of rows (row-major), defaulting to `'.'`. -/
def mkBoard (rows : List (List Char)) : Board :=
  fun r c => ((rows.getD r.val []).getD c.val '.')

/-- A fully solved valid Sudoku grid. -/
def bFull : Board :=
  mkBoard ["534678912".toList, "672195348".toList, "198342567".toList,
           "859761423".toList, "426853791".toList, "713924856".toList,
           "961537284".toList, "287419635".toList, "345286179".toList]

/-- `bFull` with one cell blanked: a board with exactly one empty cell. -/
def bOne : Board := setCell bFull 0 0 '.'

/-- `bFull` with cell (0,0) changed to `'3'`: a fully filled board containing
a duplicated digit in row 0 (cells (0,0) and (0,1)), hence with no solution. -/
def bDup : Board := setCell bFull 0 0 '3'

/-- A legal partial board with no completion: row 0 holds `'1'`–`'8'` in
columns 0–7, `'9'` sits at (1,8), so cell (0,8) admits no digit. -/
def bStuck : Board := fun r c =>
  if r.val = 0 ∧ c.val < 8 then digitChar c.val
  else if r.val = 1 ∧ c.val = 8 then '9'
  else '.'

/-- The all-empty board. -/
def bEmpty : Board := fun _ _ => '.'

/-- The `Solution` object's member state after a first `solveSudoku(bFull)`
call (used to exhibit mask staleness across calls). -/
def solAfterFull : Solver := (solveSudokuS Solver.new bFull).2

/-- A search state whose `rowMask[0]` already holds bit 0 (digit 1) while the
whole board is empty: used to show that place-then-remove is not an exact
inverse when the digit's bit was already set. -/
def sC4 : SState :=
  { board := bEmpty
    rowMask := Function.update (fun _ => 0) 0 1
    colMask := fun _ => 0
    boxMask := fun _ => 0 }

/-! ## Basic facts about characters, cells and bits -/

theorem digitChar_ne_dot : ∀ d, d < 9 → digitChar d ≠ '.' := by decide

theorem digitChar_inj : ∀ d₁, d₁ < 9 → ∀ d₂, d₂ < 9 → digitChar d₁ = digitChar d₂ → d₁ = d₂ := by
  decide

theorem digitChar_toNat : ∀ d, d < 9 → (digitChar d).toNat - '1'.toNat = d := by decide

theorem setCell_self (b : Board) (r c : Fin 9) (ch : Char) : setCell b r c ch r c = ch := by
  simp [setCell]

theorem setCell_of_ne (b : Board) (r c : Fin 9) (ch : Char) {r' c' : Fin 9}
    (h : ¬(r' = r ∧ c' = c)) : setCell b r c ch r' c' = b r' c' := by
  unfold setCell
  rcases eq_or_ne r' r with hr | hr
  · subst hr
    have hc : c' ≠ c := fun hc => h ⟨rfl, hc⟩
    rw [Function.update_same, Function.update_noteq hc]
  · rw [Function.update_noteq hr]

theorem testBit_of_and_shift_eq_zero {m d : Nat} (h : m &&& (1 <<< d) = 0) :
    m.testBit d = false := by
  have h1 := congrArg (fun x => Nat.testBit x d) h
  simpa [Nat.one_shiftLeft, Nat.testBit_and, Nat.testBit_two_pow] using h1

theorem used_free {s : SState} {r c : Fin 9} {d : Nat}
    (h : usedMask s r c &&& (1 <<< d) = 0) :
    (s.rowMask r).testBit d = false ∧ (s.colMask c).testBit d = false ∧
      (s.boxMask (boxIndex r c)).testBit d = false := by
  have h0 := testBit_of_and_shift_eq_zero h
  unfold usedMask at h0
  simp only [Nat.testBit_or, Bool.or_eq_false_iff] at h0
  exact ⟨h0.1.1, h0.1.2, h0.2⟩

theorem or_and_not_eq {m d : Nat} (hd : d < 32) (hm : m < 2 ^ 32)
    (hbit : m.testBit d = false) : (m ||| 1 <<< d) &&& (mask32 ^^^ 1 <<< d) = m := by
  rw [Nat.one_shiftLeft]
  apply Nat.eq_of_testBit_eq
  intro j
  rw [Nat.testBit_and, Nat.testBit_or, Nat.testBit_xor]
  unfold mask32
  rw [Nat.testBit_two_pow_sub_one, Nat.testBit_two_pow]
  rcases eq_or_ne d j with rfl | hj
  · simp [hbit, hd]
  · rcases lt_or_ge j 32 with h32 | h32
    · simp [hj, h32]
    · have hmj : m.testBit j = false :=
        Nat.testBit_lt_two_pow
          (lt_of_lt_of_le hm (Nat.pow_le_pow_right (by norm_num) h32))
      simp [hj, hmj, Nat.not_lt.mpr h32]

theorem unplace_place_eq (s : SState) (r c : Fin 9) (d : Nat) (hd : d < 9)
    (hb : s.board r c = '.')
    (h1 : (s.rowMask r).testBit d = false) (h2 : (s.colMask c).testBit d = false)
    (h3 : (s.boxMask (boxIndex r c)).testBit d = false)
    (m1 : s.rowMask r < 2 ^ 32) (m2 : s.colMask c < 2 ^ 32)
    (m3 : s.boxMask (boxIndex r c) < 2 ^ 32) :
    unplace (place s r c d) r c d = s := by
  have hd32 : d < 32 := by omega
  obtain ⟨b, rm, cm, bm⟩ := s
  simp only [place, unplace]
  congr 1
  · funext r' c'
    by_cases h : r' = r ∧ c' = c
    · obtain ⟨rfl, rfl⟩ := h
      rw [setCell_self]
      exact hb.symm
    · rw [setCell_of_ne _ _ _ _ h, setCell_of_ne _ _ _ _ h]
  · rw [Function.update_same, Function.update_idem, or_and_not_eq hd32 m1 h1,
      Function.update_eq_self]
  · rw [Function.update_same, Function.update_idem, or_and_not_eq hd32 m2 h2,
      Function.update_eq_self]
  · rw [Function.update_same, Function.update_idem, or_and_not_eq hd32 m3 h3,
      Function.update_eq_self]

theorem shift_lt_512 {d : Nat} (hd : d < 9) : 1 <<< d < 512 := by
  rw [Nat.one_shiftLeft]
  have h : 2 ^ d < 2 ^ 9 := Nat.pow_lt_pow_right (by norm_num) hd
  simpa using h

theorem or_lt_512 {x y : Nat} (hx : x < 512) (hy : y < 512) : x ||| y < 512 := by
  have hx9 : x < 2 ^ 9 := by simpa using hx
  have hy9 : y < 2 ^ 9 := by simpa using hy
  have h := Nat.or_lt_two_pow hx9 hy9
  simpa using h

/-! ## Characterization of `init` -/

theorem cellsRM_mem : ∀ p : Fin 9 × Fin 9, p ∈ cellsRM := by decide

theorem cellsRM_nodup : cellsRM.Nodup := by decide

theorem foldl_initCell_empties (b : Board) :
    ∀ (l : List (Fin 9 × Fin 9)) (sol : Solver),
      (l.foldl (initCell b) sol).empties
        = sol.empties ++ l.filter (fun p => decide (b p.1 p.2 = '.'))
  | [], sol => by simp
  | p :: l, sol => by
    rw [List.foldl_cons, foldl_initCell_empties b l]
    unfold initCell
    by_cases h : b p.1 p.2 = '.'
    · simp [h]
    · simp [h]

theorem init_empties (sol : Solver) (b : Board) :
    (init sol b).empties = cellsRM.filter (fun p => decide (b p.1 p.2 = '.')) := by
  unfold init
  rw [foldl_initCell_empties]
  rfl

theorem mem_init_empties (sol : Solver) (b : Board) (r c : Fin 9) :
    ((r, c) ∈ (init sol b).empties ↔ b r c = '.') := by
  rw [init_empties]
  simp [List.mem_filter, cellsRM_mem]

theorem init_empties_nodup (sol : Solver) (b : Board) : (init sol b).empties.Nodup := by
  rw [init_empties]
  exact cellsRM_nodup.filter _

theorem foldl_initCell_mask (b : Board) (hv : ValidBoard b)
    (key : Fin 9 × Fin 9 → Fin 9) (proj : Solver → Fin 9 → Nat)
    (hdot : ∀ sol p, b p.1 p.2 = '.' → proj (initCell b sol p) = proj sol)
    (hfill : ∀ sol p (dv : Fin 9), b p.1 p.2 = digitChar dv.val →
        proj (initCell b sol p)
          = Function.update (proj sol) (key p) (proj sol (key p) ||| 1 <<< dv.val)) :
    ∀ (l : List (Fin 9 × Fin 9)) (sol : Solver) (k : Fin 9) (j : Fin 9),
      ((proj (l.foldl (initCell b) sol) k).testBit j.val
        ↔ ((proj sol k).testBit j.val ∨ ∃ p ∈ l, key p = k ∧ b p.1 p.2 = digitChar j.val))
  | [], sol, k, j => by simp
  | p :: l, sol, k, j => by
    rw [List.foldl_cons, foldl_initCell_mask b hv key proj hdot hfill l _ k j]
    have base : ((proj (initCell b sol p) k).testBit j.val
        ↔ ((proj sol k).testBit j.val ∨ (key p = k ∧ b p.1 p.2 = digitChar j.val))) := by
      rcases hv p.1 p.2 with h | ⟨dv, hdv⟩
      · rw [hdot sol p h]
        constructor
        · exact Or.inl
        · rintro (hs | ⟨-, hq⟩)
          · exact hs
          · exact absurd (h.symm.trans hq).symm (digitChar_ne_dot _ j.isLt)
      · rw [hfill sol p dv hdv, Function.update_apply]
        by_cases hk : k = key p
        · subst hk
          rw [if_pos rfl, Nat.testBit_or, Nat.one_shiftLeft, Nat.testBit_two_pow]
          simp only [Bool.or_eq_true, decide_eq_true_eq]
          constructor
          · rintro (hs | hdj)
            · exact Or.inl hs
            · exact Or.inr ⟨by trivial, by rw [hdv, hdj]⟩
          · rintro (hs | ⟨-, hq⟩)
            · exact Or.inl hs
            · exact Or.inr (digitChar_inj _ dv.isLt _ j.isLt (hdv.symm.trans hq))
        · rw [if_neg hk]
          constructor
          · exact Or.inl
          · rintro (hs | ⟨hkp, -⟩)
            · exact hs
            · exact absurd hkp.symm hk
    rw [base, List.exists_mem_cons_iff]
    tauto

theorem foldl_initCell_mask_lt (b : Board) (hv : ValidBoard b)
    (key : Fin 9 × Fin 9 → Fin 9) (proj : Solver → Fin 9 → Nat)
    (hdot : ∀ sol p, b p.1 p.2 = '.' → proj (initCell b sol p) = proj sol)
    (hfill : ∀ sol p (dv : Fin 9), b p.1 p.2 = digitChar dv.val →
        proj (initCell b sol p)
          = Function.update (proj sol) (key p) (proj sol (key p) ||| 1 <<< dv.val)) :
    ∀ (l : List (Fin 9 × Fin 9)) (sol : Solver),
      (∀ k, proj sol k < 512) → ∀ k, proj (l.foldl (initCell b) sol) k < 512
  | [], sol, hs, k => hs k
  | p :: l, sol, hs, k => by
    rw [List.foldl_cons]
    refine foldl_initCell_mask_lt b hv key proj hdot hfill l _ (fun k' => ?_) k
    rcases hv p.1 p.2 with h | ⟨dv, hdv⟩
    · rw [hdot sol p h]
      exact hs k'
    · rw [hfill sol p dv hdv, Function.update_apply]
      by_cases hk : k' = key p
      · rw [if_pos hk]
        exact or_lt_512 (hs _) (shift_lt_512 dv.isLt)
      · rw [if_neg hk]
        exact hs k'

theorem initCell_rowMask_dot (b : Board) (sol : Solver) (p : Fin 9 × Fin 9)
    (h : b p.1 p.2 = '.') : (initCell b sol p).rowMask = sol.rowMask := by
  simp only [initCell]
  rw [if_pos h]

theorem initCell_colMask_dot (b : Board) (sol : Solver) (p : Fin 9 × Fin 9)
    (h : b p.1 p.2 = '.') : (initCell b sol p).colMask = sol.colMask := by
  simp only [initCell]
  rw [if_pos h]

theorem initCell_boxMask_dot (b : Board) (sol : Solver) (p : Fin 9 × Fin 9)
    (h : b p.1 p.2 = '.') : (initCell b sol p).boxMask = sol.boxMask := by
  simp only [initCell]
  rw [if_pos h]

theorem initCell_rowMask_fill (b : Board) (sol : Solver) (p : Fin 9 × Fin 9) (dv : Fin 9)
    (h : b p.1 p.2 = digitChar dv.val) :
    (initCell b sol p).rowMask
      = Function.update sol.rowMask p.1 (sol.rowMask p.1 ||| 1 <<< dv.val) := by
  have hne : b p.1 p.2 ≠ '.' := by rw [h]; exact digitChar_ne_dot _ dv.isLt
  simp only [initCell]
  rw [if_neg hne]
  rw [h, digitChar_toNat dv.val dv.isLt]

theorem initCell_colMask_fill (b : Board) (sol : Solver) (p : Fin 9 × Fin 9) (dv : Fin 9)
    (h : b p.1 p.2 = digitChar dv.val) :
    (initCell b sol p).colMask
      = Function.update sol.colMask p.2 (sol.colMask p.2 ||| 1 <<< dv.val) := by
  have hne : b p.1 p.2 ≠ '.' := by rw [h]; exact digitChar_ne_dot _ dv.isLt
  simp only [initCell]
  rw [if_neg hne]
  rw [h, digitChar_toNat dv.val dv.isLt]

theorem initCell_boxMask_fill (b : Board) (sol : Solver) (p : Fin 9 × Fin 9) (dv : Fin 9)
    (h : b p.1 p.2 = digitChar dv.val) :
    (initCell b sol p).boxMask
      = Function.update sol.boxMask (boxIndex p.1 p.2)
          (sol.boxMask (boxIndex p.1 p.2) ||| 1 <<< dv.val) := by
  have hne : b p.1 p.2 ≠ '.' := by rw [h]; exact digitChar_ne_dot _ dv.isLt
  simp only [initCell]
  rw [if_neg hne]
  rw [h, digitChar_toNat dv.val dv.isLt]

theorem init_rowMask_testBit (sol : Solver) (b : Board) (hv : ValidBoard b) (r j : Fin 9) :
    (((init sol b).rowMask r).testBit j.val
      ↔ ((sol.rowMask r).testBit j.val ∨ ∃ c, b r c = digitChar j.val)) := by
  unfold init
  rw [foldl_initCell_mask b hv Prod.fst (fun t => t.rowMask)
    (fun sol p h => initCell_rowMask_dot b sol p h)
    (fun sol p dv h => initCell_rowMask_fill b sol p dv h) cellsRM _ r j]
  constructor
  · rintro (hs | ⟨p, -, rfl, hp⟩)
    · exact Or.inl hs
    · exact Or.inr ⟨p.2, hp⟩
  · rintro (hs | ⟨c, hc⟩)
    · exact Or.inl hs
    · exact Or.inr ⟨(r, c), cellsRM_mem _, rfl, hc⟩

theorem init_colMask_testBit (sol : Solver) (b : Board) (hv : ValidBoard b) (c j : Fin 9) :
    (((init sol b).colMask c).testBit j.val
      ↔ ((sol.colMask c).testBit j.val ∨ ∃ r, b r c = digitChar j.val)) := by
  unfold init
  rw [foldl_initCell_mask b hv Prod.snd (fun t => t.colMask)
    (fun sol p h => initCell_colMask_dot b sol p h)
    (fun sol p dv h => initCell_colMask_fill b sol p dv h) cellsRM _ c j]
  constructor
  · rintro (hs | ⟨p, -, rfl, hp⟩)
    · exact Or.inl hs
    · exact Or.inr ⟨p.1, hp⟩
  · rintro (hs | ⟨r, hr⟩)
    · exact Or.inl hs
    · exact Or.inr ⟨(r, c), cellsRM_mem _, rfl, hr⟩

theorem init_boxMask_testBit (sol : Solver) (b : Board) (hv : ValidBoard b) (bx j : Fin 9) :
    (((init sol b).boxMask bx).testBit j.val
      ↔ ((sol.boxMask bx).testBit j.val ∨ ∃ r c, boxIndex r c = bx ∧ b r c = digitChar j.val)) := by
  unfold init
  rw [foldl_initCell_mask b hv (fun p => boxIndex p.1 p.2) (fun t => t.boxMask)
    (fun sol p h => initCell_boxMask_dot b sol p h)
    (fun sol p dv h => initCell_boxMask_fill b sol p dv h) cellsRM _ bx j]
  constructor
  · rintro (hs | ⟨p, -, hbx, hp⟩)
    · exact Or.inl hs
    · exact Or.inr ⟨p.1, p.2, hbx, hp⟩
  · rintro (hs | ⟨r, c, hbx, hrc⟩)
    · exact Or.inl hs
    · exact Or.inr ⟨(r, c), cellsRM_mem _, hbx, hrc⟩

theorem init_rowMask_lt (sol : Solver) (b : Board) (hv : ValidBoard b)
    (hs : ∀ r, sol.rowMask r < 512) : ∀ r, (init sol b).rowMask r < 512 := by
  unfold init
  exact foldl_initCell_mask_lt b hv Prod.fst (fun t => t.rowMask)
    (fun sol p h => initCell_rowMask_dot b sol p h)
    (fun sol p dv h => initCell_rowMask_fill b sol p dv h) cellsRM _ hs

theorem init_colMask_lt (sol : Solver) (b : Board) (hv : ValidBoard b)
    (hs : ∀ c, sol.colMask c < 512) : ∀ c, (init sol b).colMask c < 512 := by
  unfold init
  exact foldl_initCell_mask_lt b hv Prod.snd (fun t => t.colMask)
    (fun sol p h => initCell_colMask_dot b sol p h)
    (fun sol p dv h => initCell_colMask_fill b sol p dv h) cellsRM _ hs

theorem init_boxMask_lt (sol : Solver) (b : Board) (hv : ValidBoard b)
    (hs : ∀ bx, sol.boxMask bx < 512) : ∀ bx, (init sol b).boxMask bx < 512 := by
  unfold init
  exact foldl_initCell_mask_lt b hv (fun p => boxIndex p.1 p.2) (fun t => t.boxMask)
    (fun sol p h => initCell_boxMask_dot b sol p h)
    (fun sol p dv h => initCell_boxMask_fill b sol p dv h) cellsRM _ hs

theorem startState_new_maskConsistent (b : Board) (hv : ValidBoard b) :
    MaskConsistent (startState Solver.new b) := by
  refine ⟨⟨?_, ?_, ?_⟩, ?_, ?_, ?_⟩
  · exact init_rowMask_lt Solver.new b hv (fun _ => by norm_num [Solver.new])
  · exact init_colMask_lt Solver.new b hv (fun _ => by norm_num [Solver.new])
  · exact init_boxMask_lt Solver.new b hv (fun _ => by norm_num [Solver.new])
  · intro r d
    show ((init Solver.new b).rowMask r).testBit d.val ↔ ∃ c, b r c = digitChar d.val
    rw [init_rowMask_testBit Solver.new b hv r d]
    simp [Solver.new]
  · intro c d
    show ((init Solver.new b).colMask c).testBit d.val ↔ ∃ r, b r c = digitChar d.val
    rw [init_colMask_testBit Solver.new b hv c d]
    simp [Solver.new]
  · intro bx d
    show ((init Solver.new b).boxMask bx).testBit d.val
      ↔ ∃ r c, boxIndex r c = bx ∧ b r c = digitChar d.val
    rw [init_boxMask_testBit Solver.new b hv bx d]
    simp [Solver.new]

theorem startState_preL (b : Board) (hv : ValidBoard b) (hok : BoardOk b) :
    PreL (init Solver.new b).empties (startState Solver.new b) := by
  refine ⟨startState_new_maskConsistent b hv, hv, hok, fun r c => ?_⟩
  show (b r c = '.' ↔ (r, c) ∈ (init Solver.new b).empties)
  exact (mem_init_empties Solver.new b r c).symm

/-! ## Equation and projection lemmas for the search -/

theorem place_board (s : SState) (r c : Fin 9) (d : Nat) :
    (place s r c d).board = setCell s.board r c (digitChar d) := rfl

theorem place_rowMask (s : SState) (r c : Fin 9) (d : Nat) :
    (place s r c d).rowMask = Function.update s.rowMask r (s.rowMask r ||| 1 <<< d) := rfl

theorem place_colMask (s : SState) (r c : Fin 9) (d : Nat) :
    (place s r c d).colMask = Function.update s.colMask c (s.colMask c ||| 1 <<< d) := rfl

theorem place_boxMask (s : SState) (r c : Fin 9) (d : Nat) :
    (place s r c d).boxMask
      = Function.update s.boxMask (boxIndex r c) (s.boxMask (boxIndex r c) ||| 1 <<< d) := rfl

theorem unplace_board (s : SState) (r c : Fin 9) (d : Nat) :
    (unplace s r c d).board = setCell s.board r c '.' := rfl

theorem tryList_nil (next : SState → Bool × SState) (r c : Fin 9) (used : Nat) (s : SState) :
    tryList next r c used [] s = (false, s) := rfl

theorem tryList_cons (next : SState → Bool × SState) (r c : Fin 9) (used : Nat)
    (d : Nat) (ds : List Nat) (s : SState) :
    tryList next r c used (d :: ds) s
      = if used &&& (1 <<< d) ≠ 0 then tryList next r c used ds s
        else if (next (place s r c d)).1 then (true, (next (place s r c d)).2)
        else tryList next r c used ds (unplace (next (place s r c d)).2 r c d) := rfl

theorem dfsL_nil (s : SState) : dfsL [] s = (true, s) := rfl

theorem dfsL_cons (p : Fin 9 × Fin 9) (rest : List (Fin 9 × Fin 9)) (s : SState) :
    dfsL (p :: rest) s
      = tryList (fun s' => dfsL rest s') p.1 p.2 (usedMask s p.1 p.2) (List.range 9) s := rfl

theorem place_masksBelow (s : SState) (r c : Fin 9) (d : Nat) (hd : d < 9)
    (h : MasksBelow s (2 ^ 32)) : MasksBelow (place s r c d) (2 ^ 32) := by
  obtain ⟨h1, h2, h3⟩ := h
  have hbit : 1 <<< d < 2 ^ 32 := by
    rw [Nat.one_shiftLeft]
    exact Nat.pow_lt_pow_right (by norm_num) (by omega)
  refine ⟨fun k => ?_, fun k => ?_, fun k => ?_⟩
  · rw [place_rowMask, Function.update_apply]
    split
    · exact Nat.or_lt_two_pow (h1 r) hbit
    · exact h1 k
  · rw [place_colMask, Function.update_apply]
    split
    · exact Nat.or_lt_two_pow (h2 c) hbit
    · exact h2 k
  · rw [place_boxMask, Function.update_apply]
    split
    · exact Nat.or_lt_two_pow (h3 (boxIndex r c)) hbit
    · exact h3 k

/-! ## Atomicity of failure: a failed `dfs` call restores the state exactly -/

theorem tryList_fail_eq (rest : List (Fin 9 × Fin 9)) (rc cc : Fin 9) (s : SState)
    (hb : s.board rc cc = '.') (hm : MasksBelow s (2 ^ 32))
    (hnext : ∀ d, d < 9 → usedMask s rc cc &&& (1 <<< d) = 0 →
      (dfsL rest (place s rc cc d)).1 = false →
      (dfsL rest (place s rc cc d)).2 = place s rc cc d) :
    ∀ ds : List Nat, (∀ d ∈ ds, d < 9) →
      (tryList (fun s' => dfsL rest s') rc cc (usedMask s rc cc) ds s).1 = false →
      (tryList (fun s' => dfsL rest s') rc cc (usedMask s rc cc) ds s).2 = s
  | [], _, _ => by rw [tryList_nil]
  | d :: ds, hds, hf => by
    have hd9 : d < 9 := hds d (List.mem_cons_self d ds)
    have hds' : ∀ x ∈ ds, x < 9 := fun x hx => hds x (List.mem_cons_of_mem d hx)
    by_cases hskip : usedMask s rc cc &&& (1 <<< d) ≠ 0
    · rw [tryList_cons, if_pos hskip] at hf ⊢
      exact tryList_fail_eq rest rc cc s hb hm hnext ds hds' hf
    · have hfree : usedMask s rc cc &&& (1 <<< d) = 0 := by
        push_neg at hskip
        exact hskip
      obtain ⟨f1, f2, f3⟩ := used_free hfree
      rw [tryList_cons, if_neg hskip] at hf ⊢
      cases hv : (dfsL rest (place s rc cc d)).1 with
      | true => rw [if_pos hv] at hf; exact absurd hf (by simp)
      | false =>
        have hcond : ¬((dfsL rest (place s rc cc d)).1 = true) := by simp [hv]
        rw [if_neg hcond] at hf
        rw [if_neg (by simp : ¬(false = true))]
        rw [hnext d hd9 hfree hv] at hf ⊢
        rw [unplace_place_eq s rc cc d hd9 hb f1 f2 f3 (hm.1 rc) (hm.2.1 cc)
          (hm.2.2 (boxIndex rc cc))] at hf ⊢
        exact tryList_fail_eq rest rc cc s hb hm hnext ds hds' hf

theorem dfsL_fail : ∀ (rest : List (Fin 9 × Fin 9)) (s : SState), rest.Nodup →
    (∀ p ∈ rest, s.board p.1 p.2 = '.') → MasksBelow s (2 ^ 32) →
    (dfsL rest s).1 = false → (dfsL rest s).2 = s
  | [], s, _, _, _, hf => absurd (by rw [dfsL_nil] at hf; exact hf) (by simp)
  | p :: rest, s, hnd, hdot, hm, hf => by
    have hb : s.board p.1 p.2 = '.' := hdot p (List.mem_cons_self p rest)
    rw [dfsL_cons] at hf ⊢
    refine tryList_fail_eq rest p.1 p.2 s hb hm ?_ (List.range 9)
      (fun x hx => List.mem_range.mp hx) hf
    intro d hd9 hfree hfalse
    refine dfsL_fail rest (place s p.1 p.2 d) (List.nodup_cons.mp hnd).2 ?_
      (place_masksBelow s p.1 p.2 d hd9 hm) hfalse
    intro q hq
    have hqp : q ≠ p := by
      intro h
      exact (List.nodup_cons.mp hnd).1 (h ▸ hq)
    have hqne : ¬(q.1 = p.1 ∧ q.2 = p.2) := by
      rintro ⟨h1, h2⟩
      exact hqp (Prod.ext h1 h2)
    rw [place_board, setCell_of_ne _ _ _ _ hqne]
    exact hdot q (List.mem_cons_of_mem p hq)

/-! ## Preservation of the invariant by `place` -/

theorem frames_trans {a b c : Board} (h1 : Frames a b) (h2 : Frames b c) : Frames a c := by
  intro r cc ha
  have hb : b r cc = a r cc := h1 r cc ha
  have hbne : b r cc ≠ '.' := by rw [hb]; exact ha
  rw [h2 r cc hbne, hb]

theorem frames_place (s : SState) (r c : Fin 9) (d : Nat) (hb : s.board r c = '.') :
    Frames s.board (place s r c d).board := by
  intro r' c' h
  have hne : ¬(r' = r ∧ c' = c) := by
    rintro ⟨rfl, rfl⟩
    exact h hb
  rw [place_board, setCell_of_ne _ _ _ _ hne]

theorem masksBelow32_of_below512 {s : SState} (h : MasksBelow s 512) :
    MasksBelow s (2 ^ 32) := by
  obtain ⟨h1, h2, h3⟩ := h
  exact ⟨fun k => lt_trans (h1 k) (by norm_num), fun k => lt_trans (h2 k) (by norm_num),
    fun k => lt_trans (h3 k) (by norm_num)⟩

theorem validBoard_place (s : SState) (r c : Fin 9) (d : Nat) (hd : d < 9)
    (hv : ValidBoard s.board) : ValidBoard (place s r c d).board := by
  intro r' c'
  by_cases h : r' = r ∧ c' = c
  · right
    refine ⟨⟨d, hd⟩, ?_⟩
    obtain ⟨rfl, rfl⟩ := h
    rw [place_board, setCell_self]
  · rw [place_board, setCell_of_ne _ _ _ _ h]
    exact hv r' c'

theorem maskConsistent_place (s : SState) (r c : Fin 9) (d : Nat) (hd : d < 9)
    (hb : s.board r c = '.') (h : MaskConsistent s) : MaskConsistent (place s r c d) := by
  obtain ⟨⟨b1, b2, b3⟩, hrow, hcol, hbox⟩ := h
  refine ⟨⟨?_, ?_, ?_⟩, ?_, ?_, ?_⟩
  · intro k
    rw [place_rowMask, Function.update_apply]
    split
    · exact or_lt_512 (b1 r) (shift_lt_512 hd)
    · exact b1 k
  · intro k
    rw [place_colMask, Function.update_apply]
    split
    · exact or_lt_512 (b2 c) (shift_lt_512 hd)
    · exact b2 k
  · intro k
    rw [place_boxMask, Function.update_apply]
    split
    · exact or_lt_512 (b3 (boxIndex r c)) (shift_lt_512 hd)
    · exact b3 k
  · intro r' j
    rw [place_rowMask, Function.update_apply]
    rcases eq_or_ne r' r with rfl | hr
    · rw [if_pos rfl, Nat.testBit_or, Nat.one_shiftLeft, Nat.testBit_two_pow]
      simp only [Bool.or_eq_true, decide_eq_true_eq]
      constructor
      · rintro (hs | hdj)
        · obtain ⟨c₀, hc₀⟩ := (hrow r' j).mp hs
          have hc₀c : ¬(r' = r' ∧ c₀ = c) := by
            rintro ⟨-, rfl⟩
            exact digitChar_ne_dot j.val j.isLt (hc₀.symm.trans hb)
          exact ⟨c₀, by rw [place_board, setCell_of_ne _ _ _ _ hc₀c]; exact hc₀⟩
        · exact ⟨c, by rw [place_board, setCell_self, hdj]⟩
      · rintro ⟨c', hc'⟩
        by_cases hcc : c' = c
        · subst hcc
          rw [place_board, setCell_self] at hc'
          exact Or.inr (digitChar_inj d hd j.val j.isLt hc')
        · rw [place_board, setCell_of_ne _ _ _ _ (fun hh => hcc hh.2)] at hc'
          exact Or.inl ((hrow r' j).mpr ⟨c', hc'⟩)
    · rw [if_neg hr]
      rw [hrow r' j]
      constructor
      · rintro ⟨c₀, hc₀⟩
        exact ⟨c₀, by rw [place_board, setCell_of_ne _ _ _ _ (fun hh => hr hh.1)]; exact hc₀⟩
      · rintro ⟨c₀, hc₀⟩
        rw [place_board, setCell_of_ne _ _ _ _ (fun hh => hr hh.1)] at hc₀
        exact ⟨c₀, hc₀⟩
  · intro c' j
    rw [place_colMask, Function.update_apply]
    rcases eq_or_ne c' c with rfl | hc
    · rw [if_pos rfl, Nat.testBit_or, Nat.one_shiftLeft, Nat.testBit_two_pow]
      simp only [Bool.or_eq_true, decide_eq_true_eq]
      constructor
      · rintro (hs | hdj)
        · obtain ⟨r₀, hr₀⟩ := (hcol c' j).mp hs
          have hr₀r : ¬(r₀ = r ∧ c' = c') := by
            rintro ⟨rfl, -⟩
            exact digitChar_ne_dot j.val j.isLt (hr₀.symm.trans hb)
          exact ⟨r₀, by rw [place_board, setCell_of_ne _ _ _ _ hr₀r]; exact hr₀⟩
        · exact ⟨r, by rw [place_board, setCell_self, hdj]⟩
      · rintro ⟨r', hr'⟩
        by_cases hrr : r' = r
        · subst hrr
          rw [place_board, setCell_self] at hr'
          exact Or.inr (digitChar_inj d hd j.val j.isLt hr')
        · rw [place_board, setCell_of_ne _ _ _ _ (fun hh => hrr hh.1)] at hr'
          exact Or.inl ((hcol c' j).mpr ⟨r', hr'⟩)
    · rw [if_neg hc]
      rw [hcol c' j]
      constructor
      · rintro ⟨r₀, hr₀⟩
        exact ⟨r₀, by rw [place_board, setCell_of_ne _ _ _ _ (fun hh => hc hh.2)]; exact hr₀⟩
      · rintro ⟨r₀, hr₀⟩
        rw [place_board, setCell_of_ne _ _ _ _ (fun hh => hc hh.2)] at hr₀
        exact ⟨r₀, hr₀⟩
  · intro bx j
    rw [place_boxMask, Function.update_apply]
    rcases eq_or_ne bx (boxIndex r c) with rfl | hbx
    · rw [if_pos rfl, Nat.testBit_or, Nat.one_shiftLeft, Nat.testBit_two_pow]
      simp only [Bool.or_eq_true, decide_eq_true_eq]
      constructor
      · rintro (hs | hdj)
        · obtain ⟨r₀, c₀, hix, h₀⟩ := (hbox _ j).mp hs
          have hne : ¬(r₀ = r ∧ c₀ = c) := by
            rintro ⟨rfl, rfl⟩
            exact digitChar_ne_dot j.val j.isLt (h₀.symm.trans hb)
          exact ⟨r₀, c₀, hix, by rw [place_board, setCell_of_ne _ _ _ _ hne]; exact h₀⟩
        · exact ⟨r, c, rfl, by rw [place_board, setCell_self, hdj]⟩
      · rintro ⟨r', c', hix, h'⟩
        by_cases hrc : r' = r ∧ c' = c
        · obtain ⟨rfl, rfl⟩ := hrc
          rw [place_board, setCell_self] at h'
          exact Or.inr (digitChar_inj d hd j.val j.isLt h')
        · rw [place_board, setCell_of_ne _ _ _ _ hrc] at h'
          exact Or.inl ((hbox _ j).mpr ⟨r', c', hix, h'⟩)
    · rw [if_neg hbx]
      rw [hbox bx j]
      constructor
      · rintro ⟨r₀, c₀, hix, h₀⟩
        have hne : ¬(r₀ = r ∧ c₀ = c) := by
          rintro ⟨rfl, rfl⟩
          exact hbx hix.symm
        exact ⟨r₀, c₀, hix, by rw [place_board, setCell_of_ne _ _ _ _ hne]; exact h₀⟩
      · rintro ⟨r₀, c₀, hix, h₀⟩
        have hne : ¬(r₀ = r ∧ c₀ = c) := by
          rintro ⟨rfl, rfl⟩
          exact hbx hix.symm
        rw [place_board, setCell_of_ne _ _ _ _ hne] at h₀
        exact ⟨r₀, c₀, hix, h₀⟩

theorem boardOk_place (s : SState) (r c : Fin 9) (d : Nat) (hd : d < 9)
    (hb : s.board r c = '.') (hmc : MaskConsistent s)
    (f1 : (s.rowMask r).testBit d = false) (f2 : (s.colMask c).testBit d = false)
    (f3 : (s.boxMask (boxIndex r c)).testBit d = false)
    (hok : BoardOk s.board) : BoardOk (place s r c d).board := by
  obtain ⟨-, hrow, hcol, hbox⟩ := hmc
  obtain ⟨hR, hC, hB⟩ := hok
  have hcell : ∀ (r' c' : Fin 9) (j : Fin 9), (place s r c d).board r' c' = digitChar j.val →
      ((r' = r ∧ c' = c ∧ j.val = d) ∨ (¬(r' = r ∧ c' = c) ∧ s.board r' c' = digitChar j.val)) := by
    intro r' c' j hj
    by_cases h : r' = r ∧ c' = c
    · obtain ⟨rfl, rfl⟩ := h
      rw [place_board, setCell_self] at hj
      exact Or.inl ⟨rfl, rfl, (digitChar_inj d hd j.val j.isLt hj).symm⟩
    · rw [place_board, setCell_of_ne _ _ _ _ h] at hj
      exact Or.inr ⟨h, hj⟩
  refine ⟨?_, ?_, ?_⟩
  · intro r₀ c₁ c₂ j h₁ h₂
    rcases hcell r₀ c₁ j h₁ with ⟨rfl, rfl, hjd⟩ | ⟨hne₁, hs₁⟩
    · rcases hcell r₀ c₂ j h₂ with ⟨-, rfl, -⟩ | ⟨hne₂, hs₂⟩
      · rfl
      · have : (s.rowMask r₀).testBit j.val = true := (hrow r₀ j).mpr ⟨c₂, hs₂⟩
        rw [hjd] at this
        rw [f1] at this
        exact absurd this (by simp)
    · rcases hcell r₀ c₂ j h₂ with ⟨rfl, rfl, hjd⟩ | ⟨hne₂, hs₂⟩
      · have : (s.rowMask r₀).testBit j.val = true := (hrow r₀ j).mpr ⟨c₁, hs₁⟩
        rw [hjd] at this
        rw [f1] at this
        exact absurd this (by simp)
      · exact hR r₀ c₁ c₂ j hs₁ hs₂
  · intro r₁ r₂ c₀ j h₁ h₂
    rcases hcell r₁ c₀ j h₁ with ⟨rfl, rfl, hjd⟩ | ⟨hne₁, hs₁⟩
    · rcases hcell r₂ c₀ j h₂ with ⟨rfl, -, -⟩ | ⟨hne₂, hs₂⟩
      · rfl
      · have : (s.colMask c₀).testBit j.val = true := (hcol c₀ j).mpr ⟨r₂, hs₂⟩
        rw [hjd] at this
        rw [f2] at this
        exact absurd this (by simp)
    · rcases hcell r₂ c₀ j h₂ with ⟨rfl, rfl, hjd⟩ | ⟨hne₂, hs₂⟩
      · have : (s.colMask c₀).testBit j.val = true := (hcol c₀ j).mpr ⟨r₁, hs₁⟩
        rw [hjd] at this
        rw [f2] at this
        exact absurd this (by simp)
      · exact hC r₁ r₂ c₀ j hs₁ hs₂
  · intro r₁ c₁ r₂ c₂ j hix h₁ h₂
    rcases hcell r₁ c₁ j h₁ with ⟨rfl, rfl, hjd⟩ | ⟨hne₁, hs₁⟩
    · rcases hcell r₂ c₂ j h₂ with ⟨rfl, rfl, -⟩ | ⟨hne₂, hs₂⟩
      · exact ⟨rfl, rfl⟩
      · have : (s.boxMask (boxIndex r₂ c₂)).testBit j.val = true :=
          (hbox (boxIndex r₂ c₂) j).mpr ⟨r₂, c₂, rfl, hs₂⟩
        rw [← hix] at this
        rw [hjd] at this
        rw [f3] at this
        exact absurd this (by simp)
    · rcases hcell r₂ c₂ j h₂ with ⟨rfl, rfl, hjd⟩ | ⟨hne₂, hs₂⟩
      · have : (s.boxMask (boxIndex r₁ c₁)).testBit j.val = true :=
          (hbox (boxIndex r₁ c₁) j).mpr ⟨r₁, c₁, rfl, hs₁⟩
        rw [hix] at this
        rw [hjd] at this
        rw [f3] at this
        exact absurd this (by simp)
      · exact hB r₁ c₁ r₂ c₂ j hix hs₁ hs₂

theorem emptiesIff_place (s : SState) (p : Fin 9 × Fin 9) (rest : List (Fin 9 × Fin 9))
    (d : Nat) (hd : d < 9) (hnp : p ∉ rest)
    (hempt : ∀ r c, (s.board r c = '.' ↔ (r, c) ∈ p :: rest)) :
    ∀ r c, ((place s p.1 p.2 d).board r c = '.' ↔ (r, c) ∈ rest) := by
  intro r c
  by_cases h : r = p.1 ∧ c = p.2
  · obtain ⟨rfl, rfl⟩ := h
    rw [place_board, setCell_self]
    constructor
    · intro hcontra
      exact absurd hcontra (digitChar_ne_dot d hd)
    · intro hmem
      have hp : ((p.1, p.2) : Fin 9 × Fin 9) = p := rfl
      rw [hp] at hmem
      exact absurd hmem hnp
  · rw [place_board, setCell_of_ne _ _ _ _ h]
    rw [hempt r c]
    constructor
    · intro hm
      rcases List.mem_cons.mp hm with he | hm'
      · exact absurd ⟨congrArg Prod.fst he, congrArg Prod.snd he⟩ h
      · exact hm'
    · exact List.mem_cons_of_mem p

/-! ## The master invariant of the search -/

theorem tryListT_nil (next : SState → Bool × SState × List SState) (r c : Fin 9) (used : Nat)
    (s : SState) : tryListT next r c used [] s = (false, s, [s]) := rfl

theorem tryListT_cons (next : SState → Bool × SState × List SState) (r c : Fin 9) (used : Nat)
    (d : Nat) (ds : List Nat) (s : SState) :
    tryListT next r c used (d :: ds) s
      = if used &&& (1 <<< d) ≠ 0 then tryListT next r c used ds s
        else if (next (place s r c d)).1 then
          (true, (next (place s r c d)).2.1, s :: place s r c d :: (next (place s r c d)).2.2)
        else
          ((tryListT next r c used ds (unplace (next (place s r c d)).2.1 r c d)).1,
           (tryListT next r c used ds (unplace (next (place s r c d)).2.1 r c d)).2.1,
           (s :: place s r c d :: (next (place s r c d)).2.2)
             ++ (tryListT next r c used ds (unplace (next (place s r c d)).2.1 r c d)).2.2) := rfl

theorem dfsTL_nil (s : SState) : dfsTL [] s = (true, s, [s]) := rfl

theorem dfsTL_cons (p : Fin 9 × Fin 9) (rest : List (Fin 9 × Fin 9)) (s : SState) :
    dfsTL (p :: rest) s
      = tryListT (fun s' => dfsTL rest s') p.1 p.2 (usedMask s p.1 p.2) (List.range 9) s := rfl

theorem tryListT_spec (rest : List (Fin 9 × Fin 9)) (p : Fin 9 × Fin 9) (s : SState)
    (hpre : PreL (p :: rest) s) (hnp : p ∉ rest)
    (hnext : ∀ s', PreL rest s' →
      (((dfsTL rest s').1 = true →
          PreL [] (dfsTL rest s').2.1 ∧ Frames s'.board (dfsTL rest s').2.1.board) ∧
       ((dfsTL rest s').1 = false → (dfsTL rest s').2.1 = s') ∧
       (∀ t ∈ (dfsTL rest s').2.2, TraceInv s'.board t))) :
    ∀ ds : List Nat, (∀ d ∈ ds, d < 9) →
      (((tryListT (fun s' => dfsTL rest s') p.1 p.2 (usedMask s p.1 p.2) ds s).1 = true →
          PreL [] (tryListT (fun s' => dfsTL rest s') p.1 p.2 (usedMask s p.1 p.2) ds s).2.1 ∧
          Frames s.board
            (tryListT (fun s' => dfsTL rest s') p.1 p.2 (usedMask s p.1 p.2) ds s).2.1.board) ∧
       ((tryListT (fun s' => dfsTL rest s') p.1 p.2 (usedMask s p.1 p.2) ds s).1 = false →
          (tryListT (fun s' => dfsTL rest s') p.1 p.2 (usedMask s p.1 p.2) ds s).2.1 = s) ∧
       (∀ t ∈ (tryListT (fun s' => dfsTL rest s') p.1 p.2 (usedMask s p.1 p.2) ds s).2.2,
          TraceInv s.board t))
  | [], _ => by
    rw [tryListT_nil]
    refine ⟨fun h => absurd h (by simp), fun _ => rfl, ?_⟩
    intro t ht
    have hts : t = s := by simpa using ht
    subst hts
    exact ⟨hpre.1, hpre.2.1, hpre.2.2.1, fun r c h => rfl⟩
  | d :: ds, hds => by
    have hd9 : d < 9 := hds d (List.mem_cons_self d ds)
    have hds' : ∀ x ∈ ds, x < 9 := fun x hx => hds x (List.mem_cons_of_mem d hx)
    by_cases hskip : usedMask s p.1 p.2 &&& (1 <<< d) ≠ 0
    · rw [tryListT_cons, if_pos hskip]
      exact tryListT_spec rest p s hpre hnp hnext ds hds'
    · have hfree : usedMask s p.1 p.2 &&& (1 <<< d) = 0 := by
        push_neg at hskip
        exact hskip
      obtain ⟨f1, f2, f3⟩ := used_free hfree
      have hb : s.board p.1 p.2 = '.' := by
        have hp : ((p.1, p.2) : Fin 9 × Fin 9) = p := rfl
        exact (hpre.2.2.2 p.1 p.2).mpr (by rw [hp]; exact List.mem_cons_self p rest)
      have hpre1 : PreL rest (place s p.1 p.2 d) :=
        ⟨maskConsistent_place s p.1 p.2 d hd9 hb hpre.1,
         validBoard_place s p.1 p.2 d hd9 hpre.2.1,
         boardOk_place s p.1 p.2 d hd9 hb hpre.1 f1 f2 f3 hpre.2.2.1,
         emptiesIff_place s p rest d hd9 hnp hpre.2.2.2⟩
      obtain ⟨hnT, hnF, hnTr⟩ := hnext (place s p.1 p.2 d) hpre1
      have hfrpl : Frames s.board (place s p.1 p.2 d).board := frames_place s p.1 p.2 d hb
      rw [tryListT_cons, if_neg hskip]
      cases hv : (dfsTL rest (place s p.1 p.2 d)).1 with
      | true =>
        rw [if_pos rfl]
        refine ⟨fun _ => ?_, fun h => absurd h (by simp), ?_⟩
        · obtain ⟨hp0, hfr⟩ := hnT hv
          exact ⟨hp0, frames_trans hfrpl hfr⟩
        · intro t ht
          rcases List.mem_cons.mp ht with rfl | ht
          · exact ⟨hpre.1, hpre.2.1, hpre.2.2.1, fun r c h => rfl⟩
          rcases List.mem_cons.mp ht with rfl | ht
          · exact ⟨hpre1.1, hpre1.2.1, hpre1.2.2.1, hfrpl⟩
          obtain ⟨hc1, hc2, hc3, hc4⟩ := hnTr t ht
          exact ⟨hc1, hc2, hc3, frames_trans hfrpl hc4⟩
      | false =>
        rw [if_neg (by simp : ¬(false = true))]
        have hback : unplace (dfsTL rest (place s p.1 p.2 d)).2.1 p.1 p.2 d = s := by
          rw [hnF hv]
          obtain ⟨hb512, -, -, -⟩ := hpre.1
          obtain ⟨g1, g2, g3⟩ := masksBelow32_of_below512 hb512
          exact unplace_place_eq s p.1 p.2 d hd9 hb f1 f2 f3 (g1 p.1) (g2 p.2)
            (g3 (boxIndex p.1 p.2))
        rw [hback]
        obtain ⟨iT, iF, iTr⟩ := tryListT_spec rest p s hpre hnp hnext ds hds'
        refine ⟨iT, iF, ?_⟩
        intro t ht
        rw [List.mem_append] at ht
        rcases ht with ht | ht
        · rcases List.mem_cons.mp ht with rfl | ht
          · exact ⟨hpre.1, hpre.2.1, hpre.2.2.1, fun r c h => rfl⟩
          rcases List.mem_cons.mp ht with rfl | ht
          · exact ⟨hpre1.1, hpre1.2.1, hpre1.2.2.1, hfrpl⟩
          obtain ⟨hc1, hc2, hc3, hc4⟩ := hnTr t ht
          exact ⟨hc1, hc2, hc3, frames_trans hfrpl hc4⟩
        · exact iTr t ht

theorem dfsTL_spec : ∀ (rest : List (Fin 9 × Fin 9)) (s : SState), rest.Nodup → PreL rest s →
    (((dfsTL rest s).1 = true →
        PreL [] (dfsTL rest s).2.1 ∧ Frames s.board (dfsTL rest s).2.1.board) ∧
     ((dfsTL rest s).1 = false → (dfsTL rest s).2.1 = s) ∧
     (∀ t ∈ (dfsTL rest s).2.2, TraceInv s.board t))
  | [], s, _, hpre => by
    rw [dfsTL_nil]
    refine ⟨fun _ => ⟨hpre, fun r c h => rfl⟩, fun h => absurd h (by simp), ?_⟩
    intro t ht
    have hts : t = s := by simpa using ht
    subst hts
    exact ⟨hpre.1, hpre.2.1, hpre.2.2.1, fun r c h => rfl⟩
  | p :: rest, s, hnd, hpre => by
    rw [dfsTL_cons]
    exact tryListT_spec rest p s hpre (List.nodup_cons.mp hnd).1
      (fun s' hp => dfsTL_spec rest s' (List.nodup_cons.mp hnd).2 hp)
      (List.range 9) (fun x hx => List.mem_range.mp hx)

/-! ## The traced search projects onto the plain search -/

theorem tryListT_proj (next : SState → Bool × SState) (nextT : SState → Bool × SState × List SState)
    (hcomp : ∀ s', ((nextT s').1, (nextT s').2.1) = next s') (r c : Fin 9) (used : Nat) :
    ∀ (ds : List Nat) (s : SState),
      ((tryListT nextT r c used ds s).1, (tryListT nextT r c used ds s).2.1)
        = tryList next r c used ds s
  | [], s => by rw [tryListT_nil, tryList_nil]
  | d :: ds, s => by
    rw [tryListT_cons, tryList_cons]
    by_cases hskip : used &&& (1 <<< d) ≠ 0
    · rw [if_pos hskip, if_pos hskip]
      exact tryListT_proj next nextT hcomp r c used ds s
    · rw [if_neg hskip, if_neg hskip]
      have h1 : (nextT (place s r c d)).1 = (next (place s r c d)).1 :=
        congrArg Prod.fst (hcomp (place s r c d))
      have h2 : (nextT (place s r c d)).2.1 = (next (place s r c d)).2 :=
        congrArg Prod.snd (hcomp (place s r c d))
      cases hv : (next (place s r c d)).1 with
      | true =>
        rw [if_pos (h1.trans hv), if_pos rfl]
        exact congrArg (Prod.mk true) h2
      | false =>
        rw [if_neg (by rw [h1, hv]; simp), if_neg (by simp : ¬(false = true))]
        rw [h2]
        exact tryListT_proj next nextT hcomp r c used ds _

theorem dfsTL_proj : ∀ (rest : List (Fin 9 × Fin 9)) (s : SState),
    ((dfsTL rest s).1, (dfsTL rest s).2.1) = dfsL rest s
  | [], s => by rw [dfsTL_nil, dfsL_nil]
  | p :: rest, s => by
    rw [dfsTL_cons, dfsL_cons]
    exact tryListT_proj (fun s' => dfsL rest s') (fun s' => dfsTL rest s')
      (fun s' => dfsTL_proj rest s') p.1 p.2 (usedMask s p.1 p.2) (List.range 9) s

theorem dfsL_spec (rest : List (Fin 9 × Fin 9)) (s : SState) (hnd : rest.Nodup)
    (hpre : PreL rest s) :
    ((dfsL rest s).1 = true → PreL [] (dfsL rest s).2 ∧ Frames s.board (dfsL rest s).2.board) ∧
    ((dfsL rest s).1 = false → (dfsL rest s).2 = s) := by
  obtain ⟨hT, hF, -⟩ := dfsTL_spec rest s hnd hpre
  have hp := dfsTL_proj rest s
  have e1 : (dfsTL rest s).1 = (dfsL rest s).1 := congrArg Prod.fst hp
  have e2 : (dfsTL rest s).2.1 = (dfsL rest s).2 := congrArg Prod.snd hp
  constructor
  · intro h
    obtain ⟨a, b⟩ := hT (by rw [e1, h])
    rw [e2] at a b
    exact ⟨a, b⟩
  · intro h
    have hs := hF (by rw [e1, h])
    rw [e2] at hs
    exact hs

/-! ## Unconditional frame property: the search writes only to listed cells -/

theorem tryListT_frame (rest : List (Fin 9 × Fin 9)) (rc cc : Fin 9) (used : Nat)
    (hnext : ∀ (s' : SState) (r c : Fin 9), (r, c) ∉ rest →
      ((dfsTL rest s').2.1.board r c = s'.board r c ∧
       ∀ t ∈ (dfsTL rest s').2.2, t.board r c = s'.board r c)) :
    ∀ (ds : List Nat) (s : SState) (r c : Fin 9), ¬(r = rc ∧ c = cc) → (r, c) ∉ rest →
      ((tryListT (fun s' => dfsTL rest s') rc cc used ds s).2.1.board r c = s.board r c ∧
       ∀ t ∈ (tryListT (fun s' => dfsTL rest s') rc cc used ds s).2.2,
         t.board r c = s.board r c)
  | [], s, r, c, hne, hrest => by
    rw [tryListT_nil]
    refine ⟨rfl, ?_⟩
    intro t ht
    have hts : t = s := by simpa using ht
    rw [hts]
  | d :: ds, s, r, c, hne, hrest => by
    by_cases hskip : used &&& (1 <<< d) ≠ 0
    · rw [tryListT_cons, if_pos hskip]
      exact tryListT_frame rest rc cc used hnext ds s r c hne hrest
    · rw [tryListT_cons, if_neg hskip]
      have hpl : (place s rc cc d).board r c = s.board r c := by
        rw [place_board, setCell_of_ne _ _ _ _ hne]
      obtain ⟨hn1, hn2⟩ := hnext (place s rc cc d) r c hrest
      cases hv : (dfsTL rest (place s rc cc d)).1 with
      | true =>
        rw [if_pos rfl]
        refine ⟨by rw [hn1, hpl], ?_⟩
        intro t ht
        rcases List.mem_cons.mp ht with rfl | ht
        · rfl
        rcases List.mem_cons.mp ht with rfl | ht
        · exact hpl
        rw [hn2 t ht, hpl]
      | false =>
        rw [if_neg (by simp : ¬(false = true))]
        have hun : (unplace (dfsTL rest (place s rc cc d)).2.1 rc cc d).board r c
            = s.board r c := by
          rw [unplace_board, setCell_of_ne _ _ _ _ hne, hn1, hpl]
        obtain ⟨i1, i2⟩ := tryListT_frame rest rc cc used hnext ds
          (unplace (dfsTL rest (place s rc cc d)).2.1 rc cc d) r c hne hrest
        refine ⟨by rw [i1, hun], ?_⟩
        intro t ht
        rw [List.mem_append] at ht
        rcases ht with ht | ht
        · rcases List.mem_cons.mp ht with rfl | ht
          · rfl
          rcases List.mem_cons.mp ht with rfl | ht
          · exact hpl
          rw [hn2 t ht, hpl]
        · rw [i2 t ht, hun]

theorem dfsTL_frame : ∀ (rest : List (Fin 9 × Fin 9)) (s : SState) (r c : Fin 9),
    (r, c) ∉ rest →
    ((dfsTL rest s).2.1.board r c = s.board r c ∧
     ∀ t ∈ (dfsTL rest s).2.2, t.board r c = s.board r c)
  | [], s, r, c, h => by
    rw [dfsTL_nil]
    refine ⟨rfl, ?_⟩
    intro t ht
    have hts : t = s := by simpa using ht
    rw [hts]
  | p :: rest, s, r, c, h => by
    rw [dfsTL_cons]
    have hne : ¬(r = p.1 ∧ c = p.2) := by
      rintro ⟨rfl, rfl⟩
      exact h (List.mem_cons_self p rest)
    have hrest : (r, c) ∉ rest := fun hm => h (List.mem_cons_of_mem p hm)
    exact tryListT_frame rest p.1 p.2 (usedMask s p.1 p.2)
      (fun s' r' c' h' => dfsTL_frame rest s' r' c' h') (List.range 9) s r c hne hrest

theorem dfsL_frame (rest : List (Fin 9 × Fin 9)) (s : SState) (r c : Fin 9)
    (h : (r, c) ∉ rest) : (dfsL rest s).2.board r c = s.board r c := by
  have hp := congrArg Prod.snd (dfsTL_proj rest s)
  rw [← hp]
  exact (dfsTL_frame rest s r c h).1

/-! ## Completeness: if a solution extends the state, the search succeeds -/

theorem solution_bit_free (g : Board) (hok : BoardOk g) (s : SState) (hmc : MaskConsistent s)
    (hext : ∀ r c, s.board r c ≠ '.' → g r c = s.board r c)
    (r c : Fin 9) (hb : s.board r c = '.') (dg : Fin 9) (hg : g r c = digitChar dg.val) :
    usedMask s r c &&& (1 <<< dg.val) = 0 := by
  have hrowb : (s.rowMask r).testBit dg.val = false := by
    rw [← Bool.not_eq_true]
    intro hset
    obtain ⟨c₀, hc₀⟩ := (hmc.2.1 r dg).mp hset
    have hc₀ne : s.board r c₀ ≠ '.' := by
      rw [hc₀]
      exact digitChar_ne_dot dg.val dg.isLt
    have hgc₀ : g r c₀ = digitChar dg.val := by rw [hext r c₀ hc₀ne, hc₀]
    have hcc : c = c₀ := hok.1 r c c₀ dg hg hgc₀
    rw [hcc] at hb
    exact hc₀ne hb
  have hcolb : (s.colMask c).testBit dg.val = false := by
    rw [← Bool.not_eq_true]
    intro hset
    obtain ⟨r₀, hr₀⟩ := (hmc.2.2.1 c dg).mp hset
    have hr₀ne : s.board r₀ c ≠ '.' := by
      rw [hr₀]
      exact digitChar_ne_dot dg.val dg.isLt
    have hgr₀ : g r₀ c = digitChar dg.val := by rw [hext r₀ c hr₀ne, hr₀]
    have hrr : r = r₀ := hok.2.1 r r₀ c dg hg hgr₀
    rw [hrr] at hb
    exact hr₀ne hb
  have hboxb : (s.boxMask (boxIndex r c)).testBit dg.val = false := by
    rw [← Bool.not_eq_true]
    intro hset
    obtain ⟨r₀, c₀, hix, h₀⟩ := (hmc.2.2.2 (boxIndex r c) dg).mp hset
    have h₀ne : s.board r₀ c₀ ≠ '.' := by
      rw [h₀]
      exact digitChar_ne_dot dg.val dg.isLt
    have hg₀ : g r₀ c₀ = digitChar dg.val := by rw [hext r₀ c₀ h₀ne, h₀]
    obtain ⟨hr, hc⟩ := hok.2.2 r c r₀ c₀ dg hix.symm hg hg₀
    rw [hr, hc] at hb
    exact h₀ne hb
  have hused : (usedMask s r c).testBit dg.val = false := by
    unfold usedMask
    rw [Nat.testBit_or, Nat.testBit_or, hrowb, hcolb, hboxb]
    rfl
  rw [Nat.one_shiftLeft]
  apply Nat.eq_of_testBit_eq
  intro j
  rw [Nat.testBit_and, Nat.testBit_two_pow, Nat.zero_testBit]
  rcases eq_or_ne dg.val j with rfl | hj
  · simp [hused]
  · simp [hj]

theorem tryList_complete (rest : List (Fin 9 × Fin 9)) (rc cc : Fin 9) (s : SState)
    (hb : s.board rc cc = '.') (hm : MasksBelow s (2 ^ 32))
    (dg : Fin 9) (hfree : usedMask s rc cc &&& (1 <<< dg.val) = 0)
    (hsucc : (dfsL rest (place s rc cc dg.val)).1 = true)
    (hfail : ∀ d, d < 9 → usedMask s rc cc &&& (1 <<< d) = 0 →
      (dfsL rest (place s rc cc d)).1 = false →
      (dfsL rest (place s rc cc d)).2 = place s rc cc d) :
    ∀ ds : List Nat, (∀ d ∈ ds, d < 9) → dg.val ∈ ds →
      (tryList (fun s' => dfsL rest s') rc cc (usedMask s rc cc) ds s).1 = true
  | [], _, hmem => absurd hmem (List.not_mem_nil _)
  | d :: ds, hds, hmem => by
    have hd9 := hds d (List.mem_cons_self d ds)
    have hds' : ∀ x ∈ ds, x < 9 := fun x hx => hds x (List.mem_cons_of_mem d hx)
    by_cases hskip : usedMask s rc cc &&& (1 <<< d) ≠ 0
    · rw [tryList_cons, if_pos hskip]
      have hdg : dg.val ∈ ds := by
        rcases List.mem_cons.mp hmem with he | hm'
        · exact absurd (he ▸ hfree) hskip
        · exact hm'
      exact tryList_complete rest rc cc s hb hm dg hfree hsucc hfail ds hds' hdg
    · have hfree' : usedMask s rc cc &&& (1 <<< d) = 0 := by
        push_neg at hskip
        exact hskip
      obtain ⟨f1, f2, f3⟩ := used_free hfree'
      rw [tryList_cons, if_neg hskip]
      cases hv : (dfsL rest (place s rc cc d)).1 with
      | true =>
        rw [if_pos rfl]
      | false =>
        rw [if_neg (by simp : ¬(false = true))]
        have hddg : d ≠ dg.val := by
          rintro rfl
          rw [hsucc] at hv
          exact absurd hv (by simp)
        have hdg : dg.val ∈ ds := by
          rcases List.mem_cons.mp hmem with he | hm'
          · exact absurd he.symm hddg
          · exact hm'
        rw [hfail d hd9 hfree' hv]
        rw [unplace_place_eq s rc cc d hd9 hb f1 f2 f3 (hm.1 rc) (hm.2.1 cc)
          (hm.2.2 (boxIndex rc cc))]
        exact tryList_complete rest rc cc s hb hm dg hfree hsucc hfail ds hds' hdg

theorem dfsL_complete (g : Board) (hgv : ValidBoard g) (hgf : FullBoard g) (hgok : BoardOk g) :
    ∀ (rest : List (Fin 9 × Fin 9)) (s : SState), rest.Nodup → PreL rest s →
      (∀ r c, s.board r c ≠ '.' → g r c = s.board r c) → (dfsL rest s).1 = true
  | [], s, _, _, _ => by rw [dfsL_nil]
  | p :: rest, s, hnd, hpre, hext => by
    rw [dfsL_cons]
    have hb : s.board p.1 p.2 = '.' :=
      (hpre.2.2.2 p.1 p.2).mpr (List.mem_cons_self p rest)
    obtain ⟨dg, hdg⟩ := (hgv p.1 p.2).resolve_left (hgf p.1 p.2)
    have hfree := solution_bit_free g hgok s hpre.1 hext p.1 p.2 hb dg hdg
    obtain ⟨f1, f2, f3⟩ := used_free hfree
    have hm32 : MasksBelow s (2 ^ 32) := masksBelow32_of_below512 hpre.1.1
    have hnp : p ∉ rest := (List.nodup_cons.mp hnd).1
    have hpre1 : PreL rest (place s p.1 p.2 dg.val) :=
      ⟨maskConsistent_place s p.1 p.2 dg.val dg.isLt hb hpre.1,
       validBoard_place s p.1 p.2 dg.val dg.isLt hpre.2.1,
       boardOk_place s p.1 p.2 dg.val dg.isLt hb hpre.1 f1 f2 f3 hpre.2.2.1,
       emptiesIff_place s p rest dg.val dg.isLt hnp hpre.2.2.2⟩
    have hext1 : ∀ r c, (place s p.1 p.2 dg.val).board r c ≠ '.' →
        g r c = (place s p.1 p.2 dg.val).board r c := by
      intro r c hne
      by_cases h : r = p.1 ∧ c = p.2
      · obtain ⟨rfl, rfl⟩ := h
        rw [place_board, setCell_self]
        exact hdg
      · rw [place_board, setCell_of_ne _ _ _ _ h] at hne ⊢
        exact hext r c hne
    have hsucc : (dfsL rest (place s p.1 p.2 dg.val)).1 = true :=
      dfsL_complete g hgv hgf hgok rest (place s p.1 p.2 dg.val)
        (List.nodup_cons.mp hnd).2 hpre1 hext1
    have hfail : ∀ d, d < 9 → usedMask s p.1 p.2 &&& (1 <<< d) = 0 →
        (dfsL rest (place s p.1 p.2 d)).1 = false →
        (dfsL rest (place s p.1 p.2 d)).2 = place s p.1 p.2 d := by
      intro d hd9 hfr hfalse
      refine dfsL_fail rest (place s p.1 p.2 d) (List.nodup_cons.mp hnd).2 ?_
        (place_masksBelow s p.1 p.2 d hd9 hm32) hfalse
      intro q hq
      have hqne : ¬(q.1 = p.1 ∧ q.2 = p.2) := by
        rintro ⟨h1, h2⟩
        exact hnp (Prod.ext h1 h2 ▸ hq)
      rw [place_board, setCell_of_ne _ _ _ _ hqne]
      exact (hpre.2.2.2 q.1 q.2).mpr (List.mem_cons_of_mem p hq)
    exact tryList_complete rest p.1 p.2 s hb hm32 dg hfree hsucc hfail (List.range 9)
      (fun x hx => List.mem_range.mp hx) (List.mem_range.mpr dg.isLt)

/-! ## A full duplicate-free grid holds each digit exactly once everywhere -/

theorem rows_each_digit_once (b : Board) (hv : ValidBoard b) (hf : FullBoard b)
    (hok : BoardOk b) (r : Fin 9) (d : Fin 9) : ∃! c, b r c = digitChar d.val := by
  classical
  choose F hFspec using fun c => (hv r c).resolve_left (hf r c)
  have hinj : Function.Injective F := by
    intro c₁ c₂ he
    refine hok.1 r c₁ c₂ (F c₁) (hFspec c₁) ?_
    rw [he]
    exact hFspec c₂
  obtain ⟨c, hc⟩ := Finite.injective_iff_surjective.mp hinj d
  have hcell : b r c = digitChar d.val := by
    have h := hFspec c
    rw [hc] at h
    exact h
  refine ⟨c, hcell, ?_⟩
  intro c' hc'
  exact hok.1 r c' c d hc' hcell

theorem cols_each_digit_once (b : Board) (hv : ValidBoard b) (hf : FullBoard b)
    (hok : BoardOk b) (c : Fin 9) (d : Fin 9) : ∃! r, b r c = digitChar d.val := by
  classical
  choose F hFspec using fun r => (hv r c).resolve_left (hf r c)
  have hinj : Function.Injective F := by
    intro r₁ r₂ he
    refine hok.2.1 r₁ r₂ c (F r₁) (hFspec r₁) ?_
    rw [he]
    exact hFspec r₂
  obtain ⟨r, hr⟩ := Finite.injective_iff_surjective.mp hinj d
  have hcell : b r c = digitChar d.val := by
    have h := hFspec r
    rw [hr] at h
    exact h
  refine ⟨r, hcell, ?_⟩
  intro r' hr'
  exact hok.2.1 r' r c d hr' hcell

theorem boxes_each_digit_once (b : Board) (hv : ValidBoard b) (hf : FullBoard b)
    (hok : BoardOk b) (bx : Fin 9) (d : Fin 9) :
    ∃! p : Fin 9 × Fin 9, boxIndex p.1 p.2 = bx ∧ b p.1 p.2 = digitChar d.val := by
  classical
  have hbox : ∀ (i j : Fin 3),
      boxIndex ⟨bx.val / 3 * 3 + i.val, by have := bx.isLt; have := i.isLt; omega⟩
        ⟨bx.val % 3 * 3 + j.val, by have := bx.isLt; have := j.isLt; omega⟩ = bx := by
    intro i j
    apply Fin.ext
    show (bx.val / 3 * 3 + i.val) / 3 * 3 + (bx.val % 3 * 3 + j.val) / 3 = bx.val
    have h1 := bx.isLt
    have h2 := i.isLt
    have h3 := j.isLt
    omega
  choose F hFspec using fun (q : Fin 3 × Fin 3) =>
    (hv ⟨bx.val / 3 * 3 + q.1.val, by have := bx.isLt; have := q.1.isLt; omega⟩
        ⟨bx.val % 3 * 3 + q.2.val, by have := bx.isLt; have := q.2.isLt; omega⟩).resolve_left
      (hf _ _)
  have hinj : Function.Injective F := by
    intro q₁ q₂ he
    have h1 := hFspec q₁
    have h2 := hFspec q₂
    rw [he] at h1
    obtain ⟨ha, hb'⟩ := hok.2.2 _ _ _ _ (F q₂)
      ((hbox q₁.1 q₁.2).trans (hbox q₂.1 q₂.2).symm) h1 h2
    have ha' : bx.val / 3 * 3 + q₁.1.val = bx.val / 3 * 3 + q₂.1.val := congrArg Fin.val ha
    have hb'' : bx.val % 3 * 3 + q₁.2.val = bx.val % 3 * 3 + q₂.2.val := congrArg Fin.val hb'
    have e1 : q₁.1 = q₂.1 := Fin.ext (by omega)
    have e2 : q₁.2 = q₂.2 := Fin.ext (by omega)
    exact Prod.ext e1 e2
  have hbij : Function.Bijective F :=
    (Fintype.bijective_iff_injective_and_card F).mpr ⟨hinj, by simp⟩
  obtain ⟨q, hq⟩ := hbij.2 d
  have hcell : b ⟨bx.val / 3 * 3 + q.1.val, by have := bx.isLt; have := q.1.isLt; omega⟩
      ⟨bx.val % 3 * 3 + q.2.val, by have := bx.isLt; have := q.2.isLt; omega⟩
        = digitChar d.val := by
    have h := hFspec q
    rw [hq] at h
    exact h
  refine ⟨(⟨bx.val / 3 * 3 + q.1.val, by have := bx.isLt; have := q.1.isLt; omega⟩,
           ⟨bx.val % 3 * 3 + q.2.val, by have := bx.isLt; have := q.2.isLt; omega⟩),
          ⟨hbox q.1 q.2, hcell⟩, ?_⟩
  rintro p ⟨hpbox, hpdig⟩
  obtain ⟨e1, e2⟩ := hok.2.2 p.1 p.2 _ _ d (hpbox.trans (hbox q.1 q.2).symm) hpdig hcell
  exact Prod.ext e1 e2

/-! ## Top-level corollaries about `searchResult` -/

theorem searchResult_eq_dfsL (sol : Solver) (b : Board) :
    searchResult sol b = dfsL (init sol b).empties (startState sol b) := rfl

theorem startState_board (sol : Solver) (b : Board) : (startState sol b).board = b := rfl

theorem searchResult_spec (b : Board) (hv : ValidBoard b) (hok : BoardOk b) :
    ((searchResult Solver.new b).1 = true → Solves (searchResult Solver.new b).2.board b) ∧
    ((searchResult Solver.new b).1 = false →
       (searchResult Solver.new b).2 = startState Solver.new b) := by
  obtain ⟨hT, hF⟩ := dfsL_spec (init Solver.new b).empties (startState Solver.new b)
    (init_empties_nodup Solver.new b) (startState_preL b hv hok)
  rw [searchResult_eq_dfsL]
  constructor
  · intro h
    obtain ⟨⟨hmc, hval, hbok, hempt⟩, hfr⟩ := hT h
    refine ⟨hval, ?_, hbok, ?_⟩
    · intro r c hcontra
      simpa using (hempt r c).mp hcontra
    · intro r c hne
      exact hfr r c hne
  · exact hF

theorem searchResult_complete (b : Board) (hv : ValidBoard b) (hok : BoardOk b)
    (g : Board) (hg : Solves g b) : (searchResult Solver.new b).1 = true := by
  rw [searchResult_eq_dfsL]
  exact dfsL_complete g hg.1 hg.2.1 hg.2.2.1 (init Solver.new b).empties
    (startState Solver.new b) (init_empties_nodup Solver.new b) (startState_preL b hv hok)
    (fun r c h => hg.2.2.2 r c h)

theorem solveSudoku_eq_searchBoard (b : Board) :
    solveSudoku b = (searchResult Solver.new b).2.board := rfl

theorem solveSudoku_solves (b : Board) (hv : ValidBoard b) (hok : BoardOk b)
    (g : Board) (hg : Solves g b) : Solves (solveSudoku b) b := by
  rw [solveSudoku_eq_searchBoard]
  exact (searchResult_spec b hv hok).1 (searchResult_complete b hv hok g hg)

/-! ## Facts about the concrete boards -/

theorem bFull_full : FullBoard bFull := by decide

theorem bFull_solves : Solves bFull bFull := by decide

theorem bFull_unique : ∃! g, Solves g bFull := by
  refine ⟨bFull, bFull_solves, ?_⟩
  intro g hg
  funext r c
  exact hg.2.2.2 r c (bFull_full r c)

theorem bStuck_vals : ∀ c : Fin 9, c.val < 8 → bStuck 0 c = digitChar c.val := by decide

theorem bStuck_no_solution : ¬ ∃ g, Solves g bStuck := by
  rintro ⟨g, hgv, hgf, hgok, hfr⟩
  obtain ⟨d, hd⟩ := (hgv 0 8).resolve_left (hgf 0 8)
  by_cases h8 : d.val = 8
  · have hg18 : g 1 8 = digitChar 8 := by
      rw [hfr 1 8 (by decide)]
      decide
    have hg08 : g 0 8 = digitChar 8 := by rw [hd, h8]
    have h01 : (0 : Fin 9) = 1 :=
      hgok.2.1 0 1 8 ⟨8, by norm_num⟩ hg08 hg18
    exact absurd h01 (by decide)
  · have hdc : d.val < 8 := by
      have := d.isLt
      omega
    have hcell : bStuck 0 ⟨d.val, d.isLt⟩ = digitChar d.val := bStuck_vals ⟨d.val, d.isLt⟩ hdc
    have hne : bStuck 0 ⟨d.val, d.isLt⟩ ≠ '.' := by
      rw [hcell]
      exact digitChar_ne_dot d.val d.isLt
    have hgc : g 0 ⟨d.val, d.isLt⟩ = digitChar d.val := by
      rw [hfr 0 ⟨d.val, d.isLt⟩ hne, hcell]
    have heq : (⟨d.val, d.isLt⟩ : Fin 9) = (8 : Fin 9) := hgok.1 0 ⟨d.val, d.isLt⟩ 8 d hgc hd
    have hv8 : d.val = 8 := by
      have := congrArg Fin.val heq
      simpa using this
    exact absurd hv8 (by omega)

theorem bDup_full : FullBoard bDup := by decide

theorem bDup_no_solution : ¬ ∃ g, Solves g bDup := by
  rintro ⟨g, hgv, hgf, hgok, hfr⟩
  have hgb : g = bDup := funext fun r => funext fun c => hfr r c (bDup_full r c)
  rw [hgb] at hgok
  exact absurd hgok (by decide)

/-! ## The claims -/

/-- Claim C1: for every 9×9 input board of characters `'1'`–`'9'` / `'.'`
whose filled cells satisfy row/column/box uniqueness and which has exactly
one solution, `solveSudoku` (in place) makes every cell hold a digit
`'1'`–`'9'`, every row, every column, and every 3×3 box contain each digit
1–9 exactly once, and the output equal that unique solution. -/
theorem C1_solveSudoku_correct (b : Board) (hv : ValidBoard b) (hok : BoardOk b)
    (hu : ∃! g, Solves g b) :
    (∀ r c, ∃ d : Fin 9, solveSudoku b r c = digitChar d.val) ∧
    (∀ (r d : Fin 9), ∃! c, solveSudoku b r c = digitChar d.val) ∧
    (∀ (c d : Fin 9), ∃! r, solveSudoku b r c = digitChar d.val) ∧
    (∀ (bx d : Fin 9), ∃! p : Fin 9 × Fin 9,
       boxIndex p.1 p.2 = bx ∧ solveSudoku b p.1 p.2 = digitChar d.val) ∧
    (∀ g, Solves g b → solveSudoku b = g) := by
  obtain ⟨g, hg, hguniq⟩ := hu
  have hsol : Solves (solveSudoku b) b := solveSudoku_solves b hv hok g hg
  obtain ⟨sv, sf, sok, sfr⟩ := hsol
  refine ⟨fun r c => (sv r c).resolve_left (sf r c),
    fun r d => rows_each_digit_once _ sv sf sok r d,
    fun c d => cols_each_digit_once _ sv sf sok c d,
    fun bx d => boxes_each_digit_once _ sv sf sok bx d,
    fun g' hg' => ?_⟩
  have h1 : solveSudoku b = g := hguniq _ ⟨sv, sf, sok, sfr⟩
  have h2 : g' = g := hguniq g' hg'
  rw [h1, h2]

theorem C1_witness :
    ValidBoard bFull ∧ BoardOk bFull ∧ (∃! g, Solves g bFull) ∧
      ∀ g, Solves g bFull → solveSudoku bFull = g :=
  ⟨by decide, by decide, bFull_unique,
   (C1_solveSudoku_correct bFull (by decide) (by decide) bFull_unique).2.2.2.2⟩

/-- Claim C2: mask consistency is an invariant of every state reached during
the search: it holds of the state `init` produces, and of every intermediate
state visited by `dfs` — every entry of the trace of the instrumented search,
which projects exactly onto `dfs`. -/
theorem C2_mask_invariant (b : Board) (hv : ValidBoard b) (hok : BoardOk b) :
    MaskConsistent (startState Solver.new b) ∧
    (∀ t ∈ (dfsT (init Solver.new b).empties (startState Solver.new b) 0).2.2,
       MaskConsistent t) ∧
    ((dfsT (init Solver.new b).empties (startState Solver.new b) 0).1,
      (dfsT (init Solver.new b).empties (startState Solver.new b) 0).2.1)
      = dfs (init Solver.new b).empties (startState Solver.new b) 0 := by
  refine ⟨startState_new_maskConsistent b hv, ?_, ?_⟩
  · intro t ht
    exact ((dfsTL_spec (init Solver.new b).empties (startState Solver.new b)
      (init_empties_nodup Solver.new b) (startState_preL b hv hok)).2.2 t ht).1
  · exact dfsTL_proj _ _

theorem C2_witness :
    ValidBoard bOne ∧ BoardOk bOne ∧ MaskConsistent (startState Solver.new bOne) :=
  ⟨by decide, by decide, (C2_mask_invariant bOne (by decide) (by decide)).1⟩

/-- Claim C3: failure is atomic — whenever the recursive step `dfs(board,
idx)` returns `false` (for any state whose pending cells `empties.drop idx`
are distinct and empty on the board, with the masks in 32-bit `int` range),
the grid and all three mask arrays on return equal their values at the call
exactly; failure is just the boolean `false` result. -/
theorem C3_failure_atomic (em : List (Fin 9 × Fin 9)) (s : SState) (idx : Nat)
    (hnd : (em.drop idx).Nodup)
    (hdot : ∀ p ∈ em.drop idx, s.board p.1 p.2 = '.')
    (hm : MasksBelow s (2 ^ 32))
    (hf : (dfs em s idx).1 = false) : (dfs em s idx).2 = s :=
  dfsL_fail (em.drop idx) s hnd hdot hm hf

theorem C3_witness :
    ((init Solver.new bStuck).empties.drop 0).Nodup ∧
    (∀ p ∈ (init Solver.new bStuck).empties.drop 0,
       (startState Solver.new bStuck).board p.1 p.2 = '.') ∧
    MasksBelow (startState Solver.new bStuck) (2 ^ 32) ∧
    (dfs (init Solver.new bStuck).empties (startState Solver.new bStuck) 0).1 = false ∧
    (dfs (init Solver.new bStuck).empties (startState Solver.new bStuck) 0).2
      = startState Solver.new bStuck :=
  ⟨by decide, by decide, by decide, by decide,
   C3_failure_atomic _ _ 0 (by decide) (by decide) (by decide) (by decide)⟩

/-- Claim C4 as stated is false at a concrete input: in a state whose
`rowMask[0]` already contains the bit of digit 1 while cell (0,0) is empty,
place-then-remove of digit 1 at (0,0) clears that pre-existing bit, so the
state before the place step is not restored. -/
theorem C4_counterexample :
    sC4.board 0 0 = '.' ∧ unplace (place sC4 0 0 0) 0 0 0 ≠ sC4 := by
  constructor
  · rfl
  · decide

/-- Claim C4 (amended): for every state whose masks are 32-bit values, every
empty cell `(r,c)`, and every digit bit `d < 9` that is clear in `rowMask[r]`,
`colMask[c]` and `boxMask[box(r,c)]` — exactly the situation in which `dfs`
performs a placement — the remove step immediately after the place step
restores the grid and all three mask arrays exactly. -/
theorem C4_place_remove_inverse (s : SState) (r c : Fin 9) (d : Nat) (hd : d < 9)
    (hb : s.board r c = '.')
    (h1 : (s.rowMask r).testBit d = false) (h2 : (s.colMask c).testBit d = false)
    (h3 : (s.boxMask (boxIndex r c)).testBit d = false)
    (hm : MasksBelow s (2 ^ 32)) :
    unplace (place s r c d) r c d = s :=
  unplace_place_eq s r c d hd hb h1 h2 h3 (hm.1 r) (hm.2.1 c) (hm.2.2 (boxIndex r c))

theorem C4_witness :
    (startState Solver.new bEmpty).board 0 0 = '.' ∧
    unplace (place (startState Solver.new bEmpty) 0 0 0) 0 0 0
      = startState Solver.new bEmpty :=
  ⟨by decide, C4_place_remove_inverse _ 0 0 0 (by norm_num) (by decide) (by decide)
     (by decide) (by decide) (by decide)⟩

/-- Claim C5: the search is a total function — every call `dfs(board, idx)`
returns a result (the embedding is defined by structural recursion on the
remaining empties, with at most 9 digit candidates per cell) — and on every
input satisfying the exactly-one-solution, valid-prefix contract the root
call terminates with SUCCESS. -/
theorem C5_terminates_with_success (b : Board) (hv : ValidBoard b) (hok : BoardOk b)
    (hu : ∃! g, Solves g b) :
    (∀ (em : List (Fin 9 × Fin 9)) (s : SState) (idx : Nat), ∃ res, dfs em s idx = res) ∧
    (searchResult Solver.new b).1 = true := by
  obtain ⟨g, hg, -⟩ := hu
  exact ⟨fun em s idx => ⟨dfs em s idx, rfl⟩, searchResult_complete b hv hok g hg⟩

theorem C5_witness :
    ValidBoard bFull ∧ BoardOk bFull ∧ (searchResult Solver.new bFull).1 = true :=
  ⟨by decide, by decide,
   (C5_terminates_with_success bFull (by decide) (by decide) bFull_unique).2⟩

/-- Claim C6: the solver writes only to cells that were empty (`'.'`) in the
input board — a cell filled in the input holds its input digit in the final
output and in every intermediate state of the (traced) search — and the
`empties` list the search consumes is exactly the one `init` built, never
modified afterwards. -/
theorem C6_frame (b : Board) (r c : Fin 9) (hne : b r c ≠ '.') :
    solveSudoku b r c = b r c ∧
    (∀ t ∈ (dfsT (init Solver.new b).empties (startState Solver.new b) 0).2.2,
       t.board r c = b r c) ∧
    (solveSudokuS Solver.new b).2.empties = (init Solver.new b).empties := by
  have hmem : (r, c) ∉ (init Solver.new b).empties := by
    intro hm
    exact hne ((mem_init_empties Solver.new b r c).mp hm)
  refine ⟨?_, ?_, rfl⟩
  · rw [solveSudoku_eq_searchBoard, searchResult_eq_dfsL]
    exact dfsL_frame _ _ r c hmem
  · intro t ht
    exact (dfsTL_frame (init Solver.new b).empties (startState Solver.new b) r c hmem).2 t ht

theorem C6_witness : bOne 0 1 ≠ '.' ∧ solveSudoku bOne 0 1 = bOne 0 1 :=
  ⟨by decide, (C6_frame bOne 0 1 (by decide)).1⟩

/-- Claim C7: starting from a freshly constructed solver, `init` on a board
of `'1'`–`'9'` / `'.'` characters produces in one row-major pass exactly the
row-major list of `'.'`-cell coordinates, and masks whose bits are exactly
those of the filled cells: bit `d-1` (0-indexed) of `rowMask[r]` /
`colMask[c]` / `boxMask[(r/3)*3 + c/3]` is set iff that row / column / box
holds the digit character `'1' + (d-1)`, with no other bits set (all masks
are 9-bit values). -/
theorem C7_init_characterization (b : Board) (hv : ValidBoard b) :
    (init Solver.new b).empties = cellsRM.filter (fun p => decide (b p.1 p.2 = '.')) ∧
    (∀ r : Fin 9, (init Solver.new b).rowMask r < 512) ∧
    (∀ c : Fin 9, (init Solver.new b).colMask c < 512) ∧
    (∀ bx : Fin 9, (init Solver.new b).boxMask bx < 512) ∧
    (∀ (r j : Fin 9), ((init Solver.new b).rowMask r).testBit j.val
       ↔ ∃ c, b r c = digitChar j.val) ∧
    (∀ (c j : Fin 9), ((init Solver.new b).colMask c).testBit j.val
       ↔ ∃ r, b r c = digitChar j.val) ∧
    (∀ (bx j : Fin 9), ((init Solver.new b).boxMask bx).testBit j.val
       ↔ ∃ r c, boxIndex r c = bx ∧ b r c = digitChar j.val) := by
  obtain ⟨⟨m1, m2, m3⟩, i1, i2, i3⟩ := startState_new_maskConsistent b hv
  exact ⟨init_empties Solver.new b, m1, m2, m3, i1, i2, i3⟩

theorem C7_witness :
    ValidBoard bOne ∧
    (init Solver.new bOne).empties
      = cellsRM.filter (fun p => decide (bOne p.1 p.2 = '.')) :=
  ⟨by decide, (C7_init_characterization bOne (by decide)).1⟩

/-- Claim C8: `solveSudoku` is deterministic — two runs on equal input boards
(from equal solver states, with the code's fixed ascending digit order and
row-major cell order) return equal completed grids; the embedding is a pure
function, so equal inputs give equal outputs. -/
theorem C8_deterministic (sol : Solver) (b₁ b₂ : Board) (h : b₁ = b₂) :
    solveSudokuS sol b₁ = solveSudokuS sol b₂ := by rw [h]

theorem C8_witness : solveSudokuS Solver.new bFull = solveSudokuS Solver.new bFull :=
  C8_deterministic Solver.new bFull bFull rfl

/-- Claim C9 as stated is false at a concrete input: `bDup` is a fully filled
board containing a duplicated digit, hence has no legal completion, yet the
root `dfs` call returns `true` (the empty-cell list is empty), not `false`. -/
theorem C9_counterexample :
    (¬ ∃ g, Solves g bDup) ∧ (searchResult Solver.new bDup).1 = true :=
  ⟨bDup_no_solution, by decide⟩

/-- Claim C9 (amended): for every input board of valid characters whose
*filled cells satisfy row/column/box uniqueness* but which has no legal
completion, the root `dfs` call returns `false` with the search state (board
and masks) restored to its initial value, and `solveSudoku` — whose result
discards the boolean — returns the input board unchanged, giving the caller
no indication of failure. -/
theorem C9_no_solution_unchanged (b : Board) (hv : ValidBoard b) (hok : BoardOk b)
    (hns : ¬ ∃ g, Solves g b) :
    (searchResult Solver.new b).1 = false ∧
    (searchResult Solver.new b).2 = startState Solver.new b ∧
    solveSudoku b = b := by
  obtain ⟨hT, hF⟩ := searchResult_spec b hv hok
  cases hval : (searchResult Solver.new b).1 with
  | true => exact absurd ⟨_, hT hval⟩ hns
  | false =>
    have h2 := hF hval
    refine ⟨rfl, h2, ?_⟩
    rw [solveSudoku_eq_searchBoard, h2, startState_board]

theorem C9_witness :
    ValidBoard bStuck ∧ BoardOk bStuck ∧ solveSudoku bStuck = bStuck :=
  ⟨by decide, by decide,
   (C9_no_solution_unchanged bStuck (by decide) (by decide) bStuck_no_solution).2.2⟩

/-- Claim C10: `init` clears the `empties` list but never resets the masks
(they are zeroed only at construction), so a second `solveSudoku` call on the
same `Solution` object starts from stale masks: after solving the full board
`bFull` and then running `init` on the all-empty board, bit 0 of `rowMask[0]`
is still set although the second board has no filled cell at all — while a
fresh solver's `init` on that same board leaves it clear, and both calls
produce the same (freshly rebuilt) `empties` list. -/
theorem C10_stale_masks :
    (∀ r c, bEmpty r c = '.') ∧
    Nat.testBit ((init solAfterFull bEmpty).rowMask 0) 0 = true ∧
    Nat.testBit ((init Solver.new bEmpty).rowMask 0) 0 = false ∧
    (init solAfterFull bEmpty).empties = (init Solver.new bEmpty).empties := by
  exact ⟨fun r c => rfl, by decide, by decide, by decide⟩

end Sudoku
